import Mathlib

/-!
Sparse slot index of the lock-free hash map (`store.go`).

A shallow embedding of `store`, `item`, `itemOrPreNotNull` and `addItem`.

* `uintptr` values are natural numbers; the word width `w` is a parameter of
  the one operation that can wrap (`count.Add(1)`), so every statement holds
  for 32- and 64-bit words alike.
* The slot array (`array`, kept alive by `index`) is a list of optional entry
  references; the address `array + index*intSizeBytes` is position `index` of
  that list.  A load or compare-and-swap at a position outside the list has no
  defined result and is reported as `Fault.outOfBounds`.
* The operations are run without interference from other threads.  The retry
  loop of `addItem` is kept, bounded by a fuel argument; running out of fuel is
  reported as `Fault.outOfFuel`.
* Concurrent calls of `addItem` are interleavings of the atomic steps of the
  threads (`threadStep`, `runSchedule`): the atomic operations of `sync/atomic`
  take effect one at a time in a single order.
-/

set_option autoImplicit false

namespace hashmap

/-- Modelled from the spec: the declaration of `ListElement` is not part of
`store.go`.  An entry has the shape `{ keyHash, key, value }`; the store reads
only `keyHash` and compares references.  Equality of references is equality of
the record. -/
structure ListElement (Key Value : Type) where
  keyHash : Nat
  key : Key
  value : Value
deriving DecidableEq, Repr

/-- The `store` struct: `keyShifts`, `count` and the slot array.  The fields
`array` and `index` of the source denote the same memory and are one field
here. -/
structure store (Key Value : Type) where
  keyShifts : Nat
  count : Nat
  index : List (Option (ListElement Key Value))
deriving DecidableEq, Repr

/-- Ways in which a run of the model can fail to produce a result. -/
inductive Fault where
  | outOfBounds
  | outOfFuel
deriving DecidableEq, Repr

/-- What a lookup produced: the returned reference, the slot positions read by
`atomic.LoadPointer` in program order, and the store when the call returns. -/
structure Lookup (Key Value : Type) where
  ret : Option (ListElement Key Value)
  loads : List Nat
  after : store Key Value
deriving DecidableEq, Repr

section ops

variable {Key Value : Type}

/-- The load `atomic.LoadPointer(array + index*intSizeBytes)`. -/
def loadPointer (s : store Key Value) (index : Nat) :
    Except Fault (Option (ListElement Key Value)) :=
  match s.index[index]? with
  | some slot => .ok slot
  | none => .error .outOfBounds

/-- The call `atomic.CompareAndSwapPointer(ptr, old, new)` on slot `index`:
the flag tells whether the swap happened. -/
def compareAndSwapPointer [DecidableEq Key] [DecidableEq Value]
    (s : store Key Value) (index : Nat)
    (old new : Option (ListElement Key Value)) :
    Except Fault (Bool × store Key Value) :=
  match s.index[index]? with
  | some cur =>
    if cur = old then .ok (true, { s with index := s.index.set index new })
    else .ok (false, s)
  | none => .error .outOfBounds

/-- The method `store.item`. -/
def item (s : store Key Value) (hashedKey : Nat) : Except Fault (Lookup Key Value) :=
  let index := hashedKey >>> s.keyShifts
  match loadPointer s index with
  | .ok item => .ok ⟨item, [index], s⟩
  | .error f => .error f

/-- The loop condition on the loaded reference:
`item == nil || hashedKey < item.keyHash`. -/
def needPrev (hashedKey : Nat) : Option (ListElement Key Value) → Bool
  | none => true
  | some e => decide (hashedKey < e.keyHash)

/-- The `for` loop of `itemOrPreNotNull`, entered with the current `index`,
the reference `item` last loaded and the positions read so far. -/
def itemOrPreNotNullLoop (s : store Key Value) (hashedKey : Nat) :
    Nat → Option (ListElement Key Value) → List Nat → Except Fault (Lookup Key Value)
  | 0, item, loads => .ok ⟨item, loads, s⟩
  | index + 1, item, loads =>
    if needPrev hashedKey item then
      match loadPointer s index with
      | .ok prev => itemOrPreNotNullLoop s hashedKey index prev (loads ++ [index])
      | .error f => .error f
    else .ok ⟨item, loads, s⟩

/-- The method `store.itemOrPreNotNull`. -/
def itemOrPreNotNull (s : store Key Value) (hashedKey : Nat) :
    Except Fault (Lookup Key Value) :=
  let index := hashedKey >>> s.keyShifts
  match loadPointer s index with
  | .ok item => itemOrPreNotNullLoop s hashedKey index item [index]
  | .error f => .error f

/-- The `for` loop of `addItem` on slot `index`; each `continue` of the source
spends one unit of fuel.  `count.Add(1)` wraps at the word width `w`. -/
def addItemLoop [DecidableEq Key] [DecidableEq Value] (w : Nat)
    (item : ListElement Key Value) (index : Nat) :
    Nat → store Key Value → Except Fault (Nat × store Key Value)
  | 0, _ => .error .outOfFuel
  | fuel + 1, s =>
    match loadPointer s index with
    | .error f => .error f
    | .ok none =>
      match compareAndSwapPointer s index none (some item) with
      | .error f => .error f
      | .ok (true, s1) =>
        let c := (s1.count + 1) % 2 ^ w
        .ok (c, { s1 with count := c })
      | .ok (false, s1) => addItemLoop w item index fuel s1
    | .ok (some element) =>
      if item.keyHash < element.keyHash then
        match compareAndSwapPointer s index (some element) (some item) with
        | .error f => .error f
        | .ok (false, s1) => addItemLoop w item index fuel s1
        | .ok (true, s1) => .ok (0, s1)
      else .ok (0, s)

/-- The method `store.addItem`, with word width `w` and retry budget `fuel`. -/
def addItem [DecidableEq Key] [DecidableEq Value] (w fuel : Nat)
    (s : store Key Value) (item : ListElement Key Value) :
    Except Fault (Nat × store Key Value) :=
  addItemLoop w item (item.keyHash >>> s.keyShifts) fuel s

/-- A sequence of `addItem` calls, one after the other; the result lists the
return values in call order and gives the final store. -/
def addItems [DecidableEq Key] [DecidableEq Value] (w fuel : Nat) :
    store Key Value → List (ListElement Key Value) →
      Except Fault (List Nat × store Key Value)
  | s, [] => .ok ([], s)
  | s, item :: rest =>
    match addItem w fuel s item with
    | .error f => .error f
    | .ok (r, s1) =>
      match addItems w fuel s1 rest with
      | .error f => .error f
      | .ok (rs, s2) => .ok (r :: rs, s2)

/-- The slot index `keyHash >> keyShifts` computed for a hash. -/
def slotOf (s : store Key Value) (hashedKey : Nat) : Nat :=
  hashedKey >>> s.keyShifts

/-- Number of occupied slots. -/
def occupied (s : store Key Value) : Nat :=
  s.index.countP Option.isSome

/-- Every slot of the store is empty. -/
def allEmpty (s : store Key Value) : Prop :=
  ∀ slot ∈ s.index, slot = none

/-- The entry a slot holds once `item` was offered to it. -/
def offer (cur : Option (ListElement Key Value)) (item : ListElement Key Value) :
    ListElement Key Value :=
  match cur with
  | none => item
  | some e => if item.keyHash < e.keyHash then item else e

/-- The stopping test of the backward scan at position `j`, in the words of
the specification: `j` is 0, or slot `j` is occupied by an entry whose hash
is at most `hashedKey`. -/
def stopsAt (s : store Key Value) (hashedKey j : Nat) : Bool :=
  j == 0 ||
    match s.index[j]? with
    | some (some e) => decide (e.keyHash ≤ hashedKey)
    | _ => false

/-- The reference position of the backward scan, in the words of the
specification: the greatest `j ≤ hashedKey >> keyShifts` at which the scan
stops. -/
def refIndex (s : store Key Value) (hashedKey : Nat) : Nat :=
  Nat.findGreatest (fun j => stopsAt s hashedKey j = true) (hashedKey >>> s.keyShifts)

/-- The hash held by each slot (`none` for an empty slot), in slot order. -/
def slotHashes (s : store Key Value) : List (Option Nat) :=
  s.index.map (Option.map ListElement.keyHash)

/-- Bucket locality: every occupied slot `i` holds an entry whose hash is
addressed to slot `i`. -/
def bucketLocal (s : store Key Value) : Prop :=
  ∀ i e, s.index[i]? = some (some e) → slotOf s e.keyHash = i

end ops

/-- Where a thread stands inside a call of `addItem`: before the load at the
top of the `for` loop, after the load with the loaded reference, after a
successful installing compare-and-swap and before `s.count.Add(1)`, or
returned with its return value. -/
inductive Pc (Key Value : Type) where
  | atLoad
  | loaded (element : Option (ListElement Key Value))
  | installed
  | returned (ret : Nat)
deriving DecidableEq, Repr

/-- A thread that executes `addItem item`. -/
structure Thread (Key Value : Type) where
  item : ListElement Key Value
  pc : Pc Key Value
deriving DecidableEq, Repr

/-- The shared store and the threads that call `addItem` on it. -/
structure Conc (Key Value : Type) where
  mem : store Key Value
  threads : List (Thread Key Value)
deriving DecidableEq, Repr

section concurrent

variable {Key Value : Type} [DecidableEq Key] [DecidableEq Value]

/-- One atomic step of a thread inside `addItem`: the load, the
compare-and-swap that follows it (or the return of 0 when the loaded occupant's
hash is not larger), or the increment of the counter.  A thread that has
returned does nothing. -/
def threadStep (w : Nat) (s : store Key Value) (th : Thread Key Value) :
    Except Fault (store Key Value × Thread Key Value) :=
  let index := th.item.keyHash >>> s.keyShifts
  match th.pc with
  | .atLoad =>
    match loadPointer s index with
    | .error f => .error f
    | .ok element => .ok (s, { th with pc := .loaded element })
  | .loaded none =>
    match compareAndSwapPointer s index none (some th.item) with
    | .error f => .error f
    | .ok (true, s1) => .ok (s1, { th with pc := .installed })
    | .ok (false, s1) => .ok (s1, { th with pc := .atLoad })
  | .loaded (some element) =>
    if th.item.keyHash < element.keyHash then
      match compareAndSwapPointer s index (some element) (some th.item) with
      | .error f => .error f
      | .ok (false, s1) => .ok (s1, { th with pc := .atLoad })
      | .ok (true, s1) => .ok (s1, { th with pc := .returned 0 })
    else .ok (s, { th with pc := .returned 0 })
  | .installed =>
    let c := (s.count + 1) % 2 ^ w
    .ok ({ s with count := c }, { th with pc := .returned c })
  | .returned r => .ok (s, { th with pc := .returned r })

/-- The step of the system in which thread number `t` is scheduled. -/
def sysStep (w : Nat) (c : Conc Key Value) (t : Nat) : Except Fault (Conc Key Value) :=
  match c.threads[t]? with
  | none => .ok c
  | some th =>
    match threadStep w c.mem th with
    | .error f => .error f
    | .ok (s1, th1) => .ok ⟨s1, c.threads.set t th1⟩

/-- An interleaving: the threads take their atomic steps in the order given by
the schedule. -/
def runSchedule (w : Nat) : Conc Key Value → List Nat → Except Fault (Conc Key Value)
  | c, [] => .ok c
  | c, t :: rest =>
    match sysStep w c t with
    | .error f => .error f
    | .ok c1 => runSchedule w c1 rest

/-- The threads at the start of their calls, one per offered entry. -/
def spawn (s : store Key Value) (items : List (ListElement Key Value)) : Conc Key Value :=
  ⟨s, items.map (fun x => ⟨x, .atLoad⟩)⟩

/-- The thread has returned from `addItem`. -/
def Thread.hasReturned (th : Thread Key Value) : Bool :=
  match th.pc with
  | .returned _ => true
  | _ => false

/-- Every thread has returned. -/
def allReturned (c : Conc Key Value) : Bool :=
  c.threads.all Thread.hasReturned

/-- Slot `i` is occupied by an entry whose hash is at most `n`. -/
def slotLe (s : store Key Value) (i n : Nat) : Prop :=
  ∃ e, s.index[i]? = some (some e) ∧ e.keyHash ≤ n

/-- What a thread at its program point knows about slot `i`: an occupant it
loaded bounds the slot's hash from above, and so does its own entry once it
has installed it or returned. -/
def pcInv (s : store Key Value) (i : Nat) (th : Thread Key Value) : Prop :=
  match th.pc with
  | .atLoad => True
  | .loaded none => True
  | .loaded (some element) => slotLe s i element.keyHash
  | .installed => slotLe s i th.item.keyHash
  | .returned _ => slotLe s i th.item.keyHash

/-- The invariant of an interleaving of `addItem` calls that offer `items` to
slot `i`, which held `cur0` at the start: slot `i` exists, thread `k` offers
entry `k`, every thread's knowledge about the slot holds, the occupant of the
slot is an offered entry or the starting occupant, and its hash is not larger
than the starting occupant's. -/
def concInv (s0 : store Key Value) (items : List (ListElement Key Value)) (i : Nat)
    (cur0 : Option (ListElement Key Value)) (c : Conc Key Value) : Prop :=
  c.mem.keyShifts = s0.keyShifts
    ∧ (∃ cur, c.mem.index[i]? = some cur)
    ∧ (∀ k : Nat, (c.threads[k]?).map Thread.item = items[k]?)
    ∧ (∀ (k : Nat) (th : Thread Key Value), c.threads[k]? = some th → pcInv c.mem i th)
    ∧ (∀ e, c.mem.index[i]? = some (some e) → e ∈ items ∨ cur0 = some e)
    ∧ ∀ e0, cur0 = some e0 → slotLe c.mem i e0.keyHash

/-- The schedule that runs the threads `k, k + 1, ..., k + m - 1` one after
the other, three steps each. -/
def soloSchedule : Nat → Nat → List Nat
  | _, 0 => []
  | k, m + 1 => k :: k :: k :: soloSchedule (k + 1) m

/-- The content of slot `i`, empty when the slot does not exist. -/
def slotNow (s : store Key Value) (i : Nat) : Option (ListElement Key Value) :=
  (s.index[i]?).getD none

/-- The number of steps a thread at program point `pc` may still need, as a
weight for `n` threads when the slot holds `slot`: nothing once it has
returned, one step after installing; a thread that loaded what the slot still
holds is about to succeed, a thread before its load comes next, and a thread
whose loaded reference is out of date must first fail and load again. -/
def pcWeight (n : Nat) (slot : Option (ListElement Key Value)) : Pc Key Value → Nat
  | .returned _ => 0
  | .installed => 1
  | .atLoad => 2 * n + 3
  | .loaded element => if element = slot then 2 * n + 2 else 2 * n + 4

/-- The sum of the weights of all threads, for the slot `i` they address. -/
def potential (i : Nat) (c : Conc Key Value) : Nat :=
  (c.threads.map
    (fun th => pcWeight c.threads.length (slotNow c.mem i) th.pc)).sum

/-- Thread number `t` has returned, or there is no such thread. -/
def isReturned (c : Conc Key Value) (t : Nat) : Bool :=
  match c.threads[t]? with
  | some th => th.hasReturned
  | none => true

end concurrent

/-- An entry with hash `h` (key and value are the hash as well). -/
def entry (h : Nat) : ListElement Nat Nat := ⟨h, h, h⟩

/-- The empty store of the scenarios: capacity 4, `keyShifts` 2. -/
def store4 : store Nat Nat := ⟨2, 0, [none, none, none, none]⟩

/-- The store of the scenarios after the hashes 5, 9, 1, 6 were added. -/
def store4Filled : store Nat Nat :=
  ⟨2, 3, [some (entry 1), some (entry 5), some (entry 9), none]⟩

/-- A store with capacity 4 whose slot 1 alone is occupied, by the entry with
hash `h`. -/
def store4One (h : Nat) : store Nat Nat :=
  ⟨2, 1, [none, some (entry h), none, none]⟩

/-- An empty store of capacity 2 for words of 4 bits: `keyShifts` 3, so the
hashes 0 to 7 address slot 0. -/
def store2 : store Nat Nat := ⟨3, 0, [none, none]⟩

section slots

variable {Key Value : Type}

theorem loadPointer_of_get {s : store Key Value} {i : Nat}
    {slot : Option (ListElement Key Value)} (h : s.index[i]? = some slot) :
    loadPointer s i = .ok slot := by
  simp [loadPointer, h]

theorem get_of_lt {s : store Key Value} {i : Nat} (h : i < s.index.length) :
    ∃ slot, s.index[i]? = some slot :=
  ⟨s.index[i], List.getElem?_eq_getElem h⟩

theorem lt_of_get {s : store Key Value} {i : Nat}
    {slot : Option (ListElement Key Value)} (h : s.index[i]? = some slot) :
    i < s.index.length := by
  by_contra hlt
  rw [List.getElem?_eq_none (Nat.le_of_not_lt hlt)] at h
  cases h

theorem set_same {s : store Key Value} {i : Nat}
    {slot : Option (ListElement Key Value)} (h : s.index[i]? = some slot) :
    s.index.set i slot = s.index := by
  apply List.ext_getElem?
  intro j
  rw [List.getElem?_set]
  by_cases hij : i = j
  · subst hij
    simp [lt_of_get h, h]
  · simp [hij]

theorem offer_le_item (cur : Option (ListElement Key Value)) (x : ListElement Key Value) :
    (offer cur x).keyHash ≤ x.keyHash := by
  cases cur with
  | none => simp [offer]
  | some e =>
    by_cases hlt : x.keyHash < e.keyHash
    · simp [offer, hlt]
    · simp [offer, hlt, Nat.le_of_not_lt hlt]

theorem offer_le_cur (e x : ListElement Key Value) :
    (offer (some e) x).keyHash ≤ e.keyHash := by
  by_cases hlt : x.keyHash < e.keyHash
  · simp [offer, hlt, Nat.le_of_lt hlt]
  · simp [offer, hlt]

theorem offer_cases (cur : Option (ListElement Key Value)) (x : ListElement Key Value) :
    (offer cur x = x ∧ ∀ e, cur = some e → x.keyHash < e.keyHash)
      ∨ cur = some (offer cur x) := by
  cases cur with
  | none => left; simp [offer]
  | some e =>
    by_cases hlt : x.keyHash < e.keyHash
    · left; simp [offer, hlt]
    · right; simp [offer, hlt]

theorem slotOf_congr {s s1 : store Key Value} (h : s1.keyShifts = s.keyShifts) (x : Nat) :
    slotOf s1 x = slotOf s x := by
  simp [slotOf, h]

theorem countP_set_some {α : Type} (l : List (Option α)) (i : Nat) (cur : Option α) (e : α)
    (h : l[i]? = some cur) :
    (l.set i (some e)).countP Option.isSome
      = l.countP Option.isSome + (if cur.isNone then 1 else 0) := by
  have hlt : i < l.length := by
    by_contra hc
    rw [List.getElem?_eq_none (Nat.le_of_not_lt hc)] at h
    cases h
  have hget : l[i] = cur := by
    rw [List.getElem?_eq_getElem hlt] at h
    injection h
  rw [List.countP_set _ _ _ _ hlt, hget]
  cases cur with
  | none => simp
  | some a =>
    have hpos : 0 < l.countP Option.isSome :=
      List.countP_pos_iff.mpr ⟨some a, hget ▸ List.getElem_mem hlt, rfl⟩
    simp
    omega

theorem occupied_le_length (s : store Key Value) : occupied s ≤ s.index.length :=
  List.countP_le_length _

theorem occupied_allEmpty (s : store Key Value) (h : allEmpty s) : occupied s = 0 := by
  unfold occupied
  rw [List.countP_eq_zero]
  intro slot hslot
  simp [h slot hslot]

theorem allEmpty_get {s : store Key Value} (h : allEmpty s) {i : Nat}
    {slot : Option (ListElement Key Value)} (hs : s.index[i]? = some slot) : slot = none :=
  h slot (List.getElem?_mem hs)

end slots

section lemmas

variable {Key Value : Type} [DecidableEq Key] [DecidableEq Value]

/-- Publishing into an empty slot: the first iteration installs the entry and
returns the incremented counter. -/
theorem addItemLoop_install (w fuel : Nat) (s : store Key Value)
    (item : ListElement Key Value) (i : Nat) (h : s.index[i]? = some none) :
    addItemLoop w item i (fuel + 1) s
      = .ok ((s.count + 1) % 2 ^ w,
          { s with index := s.index.set i (some item), count := (s.count + 1) % 2 ^ w }) := by
  simp [addItemLoop, loadPointer, compareAndSwapPointer, h]

/-- Publishing a smaller hash over an occupant: the first iteration replaces
the occupant and returns zero. -/
theorem addItemLoop_replace (w fuel : Nat) (s : store Key Value)
    (item e : ListElement Key Value) (i : Nat) (h : s.index[i]? = some (some e))
    (hlt : item.keyHash < e.keyHash) :
    addItemLoop w item i (fuel + 1) s
      = .ok (0, { s with index := s.index.set i (some item) }) := by
  simp [addItemLoop, loadPointer, compareAndSwapPointer, h, hlt]

/-- Publishing a hash that is not smaller than the occupant's changes nothing. -/
theorem addItemLoop_keep (w fuel : Nat) (s : store Key Value)
    (item e : ListElement Key Value) (i : Nat) (h : s.index[i]? = some (some e))
    (hge : e.keyHash ≤ item.keyHash) :
    addItemLoop w item i (fuel + 1) s = .ok (0, s) := by
  simp [addItemLoop, loadPointer, h, Nat.not_lt.mpr hge]

/-- One call of `addItem` whose slot exists: it returns at the first iteration,
for every positive fuel, and the outcome is determined by the slot content. -/
theorem addItem_step (w fuel : Nat) (s : store Key Value) (item : ListElement Key Value)
    (cur : Option (ListElement Key Value))
    (h : s.index[slotOf s item.keyHash]? = some cur) :
    addItem w (fuel + 1) s item
      = .ok (if cur.isNone then (s.count + 1) % 2 ^ w else 0,
          ⟨s.keyShifts, if cur.isNone then (s.count + 1) % 2 ^ w else s.count,
            s.index.set (slotOf s item.keyHash) (some (offer cur item))⟩) := by
  unfold addItem
  unfold slotOf at h ⊢
  cases cur with
  | none => rw [addItemLoop_install w fuel s item _ h]; rfl
  | some e =>
    by_cases hlt : item.keyHash < e.keyHash
    · rw [addItemLoop_replace w fuel s item e _ h hlt]
      simp [offer, hlt]
    · rw [addItemLoop_keep w fuel s item e _ h (Nat.le_of_not_lt hlt)]
      simp only [offer, hlt, if_false, Option.isNone_some]
      rw [set_same h]
      rfl

/-- Slot `j` after one call of `addItem`. -/
theorem addItem_get (w fuel : Nat) (s : store Key Value) (item : ListElement Key Value)
    (cur : Option (ListElement Key Value))
    (h : s.index[slotOf s item.keyHash]? = some cur) :
    ∃ r s1, addItem w (fuel + 1) s item = .ok (r, s1)
      ∧ s1.keyShifts = s.keyShifts
      ∧ s1.index.length = s.index.length
      ∧ s1.index[slotOf s item.keyHash]? = some (some (offer cur item))
      ∧ (∀ j, j ≠ slotOf s item.keyHash → s1.index[j]? = s.index[j]?)
      ∧ r = (if cur.isNone then (s.count + 1) % 2 ^ w else 0)
      ∧ s1.count = (if cur.isNone then (s.count + 1) % 2 ^ w else s.count) := by
  refine ⟨_, _, addItem_step w fuel s item cur h, rfl, ?_, ?_, ?_, rfl, rfl⟩
  · simp
  · simp only
    rw [List.getElem?_set]
    simp [lt_of_get h]
  · intro j hj
    simp only
    rw [List.getElem?_set_ne (Ne.symm hj)]

/-- A call of `addItem` on a slot that does not exist has no result. -/
theorem addItem_outOfBounds (w fuel : Nat) (s : store Key Value) (item : ListElement Key Value)
    (h : s.index[slotOf s item.keyHash]? = none) :
    addItem w (fuel + 1) s item = .error .outOfBounds := by
  unfold slotOf at h
  simp [addItem, addItemLoop, loadPointer, h]

/-- What a returned call of `addItem` did. -/
theorem addItem_facts {w fuel : Nat} {s s1 : store Key Value} {item : ListElement Key Value}
    {r : Nat} (h : addItem w (fuel + 1) s item = .ok (r, s1)) :
    ∃ cur, s.index[slotOf s item.keyHash]? = some cur
      ∧ s1.keyShifts = s.keyShifts
      ∧ s1.index.length = s.index.length
      ∧ s1.index[slotOf s item.keyHash]? = some (some (offer cur item))
      ∧ (∀ j, j ≠ slotOf s item.keyHash → s1.index[j]? = s.index[j]?)
      ∧ r = (if cur.isNone then (s.count + 1) % 2 ^ w else 0)
      ∧ s1.count = (if cur.isNone then (s.count + 1) % 2 ^ w else s.count) := by
  cases hcur : s.index[slotOf s item.keyHash]? with
  | none =>
    rw [addItem_outOfBounds w fuel s item hcur] at h
    cases h
  | some cur =>
    obtain ⟨r2, s2, hrun, h1, h2, h3, h4, h5, h6⟩ := addItem_get w fuel s item cur hcur
    rw [hrun] at h
    cases h
    exact ⟨cur, rfl, h1, h2, h3, h4, h5, h6⟩

/-- A returned run of `addItems` on a non-empty list splits into its first
call and the run of the rest. -/
theorem addItems_cons_inv {w fuel : Nat} {s s2 : store Key Value} {x : ListElement Key Value}
    {rest : List (ListElement Key Value)} {rets : List Nat}
    (h : addItems w fuel s (x :: rest) = .ok (rets, s2)) :
    ∃ r s1 rs, addItem w fuel s x = .ok (r, s1)
      ∧ addItems w fuel s1 rest = .ok (rs, s2) ∧ rets = r :: rs := by
  unfold addItems at h
  cases h1 : addItem w fuel s x with
  | error f => rw [h1] at h; cases h
  | ok p =>
    obtain ⟨r, s1⟩ := p
    rw [h1] at h
    simp only at h
    cases h2 : addItems w fuel s1 rest with
    | error f => rw [h2] at h; cases h
    | ok q =>
      obtain ⟨rs, s3⟩ := q
      rw [h2] at h
      simp only at h
      cases h
      exact ⟨r, s1, rs, rfl, h2, rfl⟩

/-- A run of `addItems` whose hashes all address existing slots returns, for
every positive fuel. -/
theorem addItems_ok (w fuel : Nat) (items : List (ListElement Key Value)) :
    ∀ s : store Key Value, (∀ x ∈ items, slotOf s x.keyHash < s.index.length) →
      ∃ rets s2, addItems w (fuel + 1) s items = .ok (rets, s2) := by
  induction items with
  | nil => intro s _; exact ⟨[], s, rfl⟩
  | cons x rest ih =>
    intro s hin
    obtain ⟨cur, hcur⟩ := get_of_lt (hin x (List.mem_cons_self _ _))
    obtain ⟨r, s1, hrun, hks, hlen, -⟩ := addItem_get w fuel s x cur hcur
    have hin1 : ∀ y ∈ rest, slotOf s1 y.keyHash < s1.index.length := by
      intro y hy
      rw [slotOf_congr hks, hlen]
      exact hin y (List.mem_cons_of_mem _ hy)
    obtain ⟨rs, s2, hrest⟩ := ih s1 hin1
    exact ⟨r :: rs, s2, by simp [addItems, hrun, hrest]⟩

/-- Slot contents after a returned run of `addItems`, relative to the store
it started from: which slots are still empty, where each occupant comes from,
and that it is minimal among the offered entries of its slot. -/
theorem addItems_slots (w fuel : Nat) (items : List (ListElement Key Value)) :
    ∀ (s s2 : store Key Value) (rets : List Nat),
      addItems w (fuel + 1) s items = .ok (rets, s2) →
      s2.keyShifts = s.keyShifts ∧ s2.index.length = s.index.length
        ∧ rets.length = items.length
        ∧ ∀ i,
          (s2.index[i]? = some none ↔
            (s.index[i]? = some none ∧ ∀ x ∈ items, slotOf s x.keyHash ≠ i))
          ∧ ∀ e, s2.index[i]? = some (some e) →
              (s.index[i]? = some (some e) ∨ (e ∈ items ∧ slotOf s e.keyHash = i))
              ∧ (∀ x ∈ items, slotOf s x.keyHash = i → e.keyHash ≤ x.keyHash)
              ∧ (∀ e0, s.index[i]? = some (some e0) → e.keyHash ≤ e0.keyHash) := by
  induction items with
  | nil =>
    intro s s2 rets h
    simp only [addItems, Except.ok.injEq, Prod.mk.injEq] at h
    obtain ⟨h1, h2⟩ := h
    subst h1 h2
    refine ⟨rfl, rfl, rfl, fun i => ⟨by simp, ?_⟩⟩
    intro e he
    refine ⟨Or.inl he, by simp, ?_⟩
    intro e0 he0
    rw [he] at he0
    cases he0
    exact Nat.le_refl _
  | cons x rest ih =>
    intro s s2 rets h
    obtain ⟨r, s1, rs, hx, hrest, hrets⟩ := addItems_cons_inv h
    obtain ⟨cur, hcur, hks, hlen, hset, hother, -, -⟩ := addItem_facts hx
    obtain ⟨iks, ilen, irets, islots⟩ := ih s1 s2 rs hrest
    have hslot : ∀ y : Nat, slotOf s1 y = slotOf s y := slotOf_congr hks
    refine ⟨iks.trans hks, ilen.trans hlen, by simp [hrets, irets], ?_⟩
    intro i
    obtain ⟨iA, iB⟩ := islots i
    by_cases hi : i = slotOf s x.keyHash
    · subst hi
      constructor
      · constructor
        · intro h2
          have := (iA.mp h2).1
          rw [hset] at this
          cases this
        · rintro ⟨-, hne⟩
          exact absurd rfl (hne x (List.mem_cons_self _ _))
      · intro e he
        obtain ⟨b1, b2, b3⟩ := iB e he
        have hle : e.keyHash ≤ (offer cur x).keyHash := b3 _ hset
        refine ⟨?_, ?_, ?_⟩
        · rcases b1 with b1 | ⟨hmem, hsl⟩
          · rw [hset] at b1
            have heq : offer cur x = e := by injection b1 with b1; injection b1
            rcases offer_cases cur x with ⟨hc, -⟩ | hc
            · right
              rw [← heq, hc]
              exact ⟨List.mem_cons_self _ _, rfl⟩
            · left
              rw [hcur, hc, heq]
          · right
            exact ⟨List.mem_cons_of_mem _ hmem, (hslot _).symm.trans hsl⟩
        · intro y hy hsl
          rcases List.mem_cons.mp hy with hy | hy
          · subst hy
            exact Nat.le_trans hle (offer_le_item cur y)
          · exact b2 y hy ((hslot _).trans hsl)
        · intro e0 he0
          rw [hcur] at he0
          have hc : cur = some e0 := by injection he0
          subst hc
          exact Nat.le_trans hle (offer_le_cur e0 x)
    · rw [hother i hi] at iA iB
      constructor
      · rw [iA]
        constructor
        · rintro ⟨h1, h2⟩
          refine ⟨h1, ?_⟩
          intro y hy
          rcases List.mem_cons.mp hy with hy | hy
          · subst hy
            exact fun hc => hi hc.symm
          · rw [← hslot]
            exact h2 y hy
        · rintro ⟨h1, h2⟩
          refine ⟨h1, ?_⟩
          intro y hy
          rw [hslot]
          exact h2 y (List.mem_cons_of_mem _ hy)
      · intro e he
        obtain ⟨b1, b2, b3⟩ := iB e he
        refine ⟨?_, ?_, b3⟩
        · rcases b1 with b1 | ⟨hmem, hsl⟩
          · exact Or.inl b1
          · exact Or.inr ⟨List.mem_cons_of_mem _ hmem, (hslot _).symm.trans hsl⟩
        · intro y hy hsl
          rcases List.mem_cons.mp hy with hy | hy
          · subst hy
            exact absurd hsl.symm hi
          · exact b2 y hy ((hslot _).trans hsl)

/-- The occupancy and the counter after a returned call of `addItem`. -/
theorem addItem_count_facts {w fuel : Nat} {s s1 : store Key Value}
    {item : ListElement Key Value} {r : Nat}
    (h : addItem w (fuel + 1) s item = .ok (r, s1)) :
    ∃ cur, s.index[slotOf s item.keyHash]? = some cur
      ∧ occupied s1 = occupied s + (if cur.isNone then 1 else 0)
      ∧ r = (if cur.isNone then (s.count + 1) % 2 ^ w else 0)
      ∧ s1.count = (if cur.isNone then (s.count + 1) % 2 ^ w else s.count) := by
  cases hcur : s.index[slotOf s item.keyHash]? with
  | none =>
    rw [addItem_outOfBounds w fuel s item hcur] at h
    cases h
  | some cur =>
    rw [addItem_step w fuel s item cur hcur] at h
    simp only [Except.ok.injEq, Prod.mk.injEq] at h
    obtain ⟨h1, h2⟩ := h
    subst h1 h2
    refine ⟨cur, rfl, ?_, rfl, rfl⟩
    exact countP_set_some s.index _ cur _ hcur

/-- The counter tracks the occupancy across a returned call of `addItem` on
an array of fewer than `2 ^ w` slots, and the return value is non-zero exactly
when the slot was empty. -/
theorem addItem_countInv {w fuel : Nat} {s s1 : store Key Value}
    {item : ListElement Key Value} {r : Nat}
    (h : addItem w (fuel + 1) s item = .ok (r, s1))
    (hinv : s.count = occupied s) (hlen : s.index.length < 2 ^ w) :
    s1.count = occupied s1
      ∧ (r ≠ 0 ↔ s.index[slotOf s item.keyHash]? = some none)
      ∧ (r ≠ 0 → r = s.count + 1 ∧ s1.count = s.count + 1)
      ∧ (r = 0 → s1.count = s.count) := by
  obtain ⟨cur, hcur, hocc, hr, hcnt⟩ := addItem_count_facts h
  have hle := occupied_le_length s1
  obtain ⟨-, -, -, hlen1, -⟩ := addItem_facts h
  cases cur with
  | none =>
    simp only [Option.isNone_none, if_true] at hocc hr hcnt
    have hmod : (s.count + 1) % 2 ^ w = s.count + 1 := by
      apply Nat.mod_eq_of_lt
      omega
    rw [hmod] at hr hcnt
    refine ⟨by omega, ?_, fun _ => ⟨hr, hcnt⟩, fun h0 => by omega⟩
    simp [hcur, hr]
  | some e =>
    simp only [Option.isNone_some] at hocc hr hcnt
    simp at hocc hr hcnt
    refine ⟨by omega, ?_, fun h0 => absurd hr h0, fun _ => hcnt⟩
    simp [hcur, hr]

/-- Counter and return values of a returned run of `addItems` that starts with
the counter equal to the occupancy, on an array of fewer than `2 ^ w` slots:
the counter still equals the occupancy, and the non-zero return values are the
successive counter values. -/
theorem addItems_counts (w fuel : Nat) (items : List (ListElement Key Value)) :
    ∀ (s s2 : store Key Value) (rets : List Nat),
      addItems w (fuel + 1) s items = .ok (rets, s2) →
      s.count = occupied s → s.index.length < 2 ^ w →
      s2.count = occupied s2 ∧ s.count ≤ s2.count
        ∧ rets.filter (fun r => decide (r ≠ 0))
            = List.range' (s.count + 1) (s2.count - s.count) := by
  induction items with
  | nil =>
    intro s s2 rets h hinv _
    simp only [addItems, Except.ok.injEq, Prod.mk.injEq] at h
    obtain ⟨h1, h2⟩ := h
    subst h1 h2
    exact ⟨hinv, Nat.le_refl _, by simp⟩
  | cons x rest ih =>
    intro s s2 rets h hinv hlen
    obtain ⟨r, s1, rs, hx, hrest, hrets⟩ := addItems_cons_inv h
    obtain ⟨hinv1, -, hnz, hz⟩ := addItem_countInv hx hinv hlen
    obtain ⟨-, -, -, hlen1, -⟩ := addItem_facts hx
    obtain ⟨i1, i2, i3⟩ := ih s1 s2 rs hrest hinv1 (by omega)
    subst hrets
    by_cases hr : r = 0
    · have hc := hz hr
      refine ⟨i1, by omega, ?_⟩
      rw [List.filter_cons_of_neg (by simp [hr]), i3, hc]
    · obtain ⟨hr1, hc⟩ := hnz hr
      refine ⟨i1, by omega, ?_⟩
      rw [List.filter_cons_of_pos (by simp [hr]), i3, hc, hr1]
      have : s2.count - s.count = (s2.count - (s.count + 1)) + 1 := by omega
      rw [this, List.range'_succ]

/-- In a returned run of `addItems` that starts with the counter equal to the
occupancy, the call at position `k` returns non-zero exactly when its slot was
empty at the start and no earlier call of the run addressed that slot. -/
theorem addItems_nonzero (w fuel : Nat) (items : List (ListElement Key Value)) :
    ∀ (s s2 : store Key Value) (rets : List Nat),
      addItems w (fuel + 1) s items = .ok (rets, s2) →
      s.count = occupied s → s.index.length < 2 ^ w →
      ∀ (k : Nat) (x : ListElement Key Value) (r : Nat),
        items[k]? = some x → rets[k]? = some r →
        (r ≠ 0 ↔ (s.index[slotOf s x.keyHash]? = some none
          ∧ ∀ y ∈ items.take k, slotOf s y.keyHash ≠ slotOf s x.keyHash)) := by
  induction items with
  | nil => intro s s2 rets _ _ _ k x r hx; simp at hx
  | cons x0 rest ih =>
    intro s s2 rets h hinv hlen k x r hx hr
    obtain ⟨r0, s1, rs, h0, hrest, hrets⟩ := addItems_cons_inv h
    obtain ⟨hinv1, hiff, -, -⟩ := addItem_countInv h0 hinv hlen
    obtain ⟨cur, hcur, hks, hlen1, hset, hother, -, -⟩ := addItem_facts h0
    subst hrets
    cases k with
    | zero =>
      simp only [List.getElem?_cons_zero, Option.some.injEq] at hx hr
      subst hx hr
      simp [hiff]
    | succ k =>
      simp only [List.getElem?_cons_succ] at hx hr
      have step := ih s1 s2 rs hrest hinv1 (by omega) k x r hx hr
      rw [step]
      simp only [slotOf_congr hks, List.take_succ_cons, List.mem_cons, forall_eq_or_imp]
      by_cases hi : slotOf s x.keyHash = slotOf s x0.keyHash
      · rw [hi, hset]
        simp
      · rw [hother _ hi]
        constructor
        · rintro ⟨a, b⟩
          exact ⟨a, fun hc => hi hc.symm, b⟩
        · rintro ⟨a, -, b⟩
          exact ⟨a, b⟩

/-- From a store whose slots are all empty, a run of `addItems` over hashes
that address existing slots returns; a slot ends occupied exactly when some
offered entry addressed it, and its occupant is an offered entry of that slot
with the least hash among them. -/
theorem addItems_watermark (w fuel : Nat) (s : store Key Value)
    (items : List (ListElement Key Value)) (hempty : allEmpty s)
    (hin : ∀ x ∈ items, slotOf s x.keyHash < s.index.length) :
    ∃ rets s2, addItems w (fuel + 1) s items = .ok (rets, s2)
      ∧ s2.index.length = s.index.length
      ∧ ∀ i, i < s.index.length →
          ((∃ e, s2.index[i]? = some (some e)) ↔ ∃ x ∈ items, slotOf s x.keyHash = i)
          ∧ ∀ e, s2.index[i]? = some (some e) →
              e ∈ items ∧ slotOf s e.keyHash = i
                ∧ ∀ x ∈ items, slotOf s x.keyHash = i → e.keyHash ≤ x.keyHash := by
  obtain ⟨rets, s2, hrun⟩ := addItems_ok w fuel items s hin
  obtain ⟨-, hlen, -, hslots⟩ := addItems_slots w fuel items s s2 rets hrun
  refine ⟨rets, s2, hrun, hlen, ?_⟩
  intro i hi
  obtain ⟨hA, hB⟩ := hslots i
  obtain ⟨slot0, hslot0⟩ := get_of_lt hi
  have h0 : s.index[i]? = some none := by rw [hslot0, allEmpty_get hempty hslot0]
  have hocc : ∀ e, s2.index[i]? = some (some e) →
      e ∈ items ∧ slotOf s e.keyHash = i
        ∧ ∀ x ∈ items, slotOf s x.keyHash = i → e.keyHash ≤ x.keyHash := by
    intro e he
    obtain ⟨b1, b2, -⟩ := hB e he
    rcases b1 with b1 | b1
    · rw [h0] at b1
      cases b1
    · exact ⟨b1.1, b1.2, b2⟩
  refine ⟨⟨?_, ?_⟩, hocc⟩
  · rintro ⟨e, he⟩
    exact ⟨e, (hocc e he).1, (hocc e he).2.1⟩
  · rintro ⟨x, hx, hxi⟩
    obtain ⟨slot2, hslot2⟩ := get_of_lt (s := s2) (i := i) (by omega)
    cases slot2 with
    | some e => exact ⟨e, hslot2⟩
    | none => exact absurd hxi ((hA.mp hslot2).2 x hx)

/-- A returned call of `addItem` keeps bucket locality. -/
theorem addItem_bucketLocal {w fuel : Nat} {s s1 : store Key Value}
    {item : ListElement Key Value} {r : Nat}
    (h : addItem w (fuel + 1) s item = .ok (r, s1)) (hloc : bucketLocal s) :
    bucketLocal s1 := by
  obtain ⟨cur, hcur, hks, -, hset, hother, -, -⟩ := addItem_facts h
  intro i e he
  rw [slotOf_congr hks]
  by_cases hi : i = slotOf s item.keyHash
  · subst hi
    rw [hset] at he
    have heq : offer cur item = e := by injection he with he; injection he
    rcases offer_cases cur item with ⟨hc, -⟩ | hc
    · rw [← heq, hc]
    · rw [hc, heq] at hcur
      exact hloc _ e hcur
  · rw [hother i hi] at he
    exact hloc i e he

/-- A returned run of `addItems` keeps bucket locality. -/
theorem addItems_bucketLocal (w fuel : Nat) (items : List (ListElement Key Value)) :
    ∀ (s s2 : store Key Value) (rets : List Nat),
      addItems w (fuel + 1) s items = .ok (rets, s2) → bucketLocal s → bucketLocal s2 := by
  induction items with
  | nil =>
    intro s s2 rets h hloc
    simp only [addItems, Except.ok.injEq, Prod.mk.injEq] at h
    rw [← h.2]
    exact hloc
  | cons x rest ih =>
    intro s s2 rets h hloc
    obtain ⟨r, s1, rs, hx, hrest, -⟩ := addItems_cons_inv h
    exact ih s1 s2 rs hrest (addItem_bucketLocal hx hloc)

end lemmas

section lookups

variable {Key Value : Type}

theorem stopsAt_succ_eq (s : store Key Value) (h i : Nat)
    (slot : Option (ListElement Key Value)) (hs : s.index[i + 1]? = some slot) :
    stopsAt s h (i + 1) = !needPrev h slot := by
  unfold stopsAt
  rw [hs]
  cases slot with
  | none => simp [needPrev]
  | some e =>
    by_cases hlt : h < e.keyHash
    · simp [needPrev, hlt, Nat.not_le.mpr hlt]
    · simp [needPrev, hlt, Nat.le_of_not_lt hlt]

/-- The loop of `itemOrPreNotNull`, entered at an existing slot `i` with that
slot's content, returns the content of the greatest stopping position at or
below `i`, and leaves the store as it was. -/
theorem itemOrPreNotNullLoop_spec (s : store Key Value) (h : Nat) :
    ∀ (i : Nat) (cur : Option (ListElement Key Value)) (loads : List Nat),
      s.index[i]? = some cur →
      ∃ r, itemOrPreNotNullLoop s h i cur loads = .ok r
        ∧ s.index[Nat.findGreatest (fun j => stopsAt s h j = true) i]? = some r.ret
        ∧ r.after = s := by
  intro i
  induction i with
  | zero =>
    intro cur loads hcur
    exact ⟨⟨cur, loads, s⟩, rfl, by simpa using hcur, rfl⟩
  | succ i ih =>
    intro cur loads hcur
    have hstop := stopsAt_succ_eq s h i cur hcur
    unfold itemOrPreNotNullLoop
    by_cases hn : needPrev h cur = true
    · obtain ⟨prev, hprev⟩ := get_of_lt (Nat.lt_of_succ_lt (lt_of_get hcur))
      have hnot : ¬ (stopsAt s h (i + 1) = true) := by simp [hstop, hn]
      obtain ⟨r, hr, hget, hafter⟩ := ih prev (loads ++ [i]) hprev
      refine ⟨r, ?_, ?_, hafter⟩
      · simp [hn, loadPointer_of_get hprev, hr]
      · rw [Nat.findGreatest_of_not hnot]
        exact hget
    · have hyes : stopsAt s h (i + 1) = true := by simp [hstop, hn]
      refine ⟨⟨cur, loads, s⟩, ?_, ?_, rfl⟩
      · simp [hn]
      · rw [Nat.findGreatest_eq hyes]
        exact hcur

/-- The method `itemOrPreNotNull` on a hash whose slot exists: it returns the
content of the reference position. -/
theorem itemOrPreNotNull_ref (s : store Key Value) (h : Nat)
    (hin : slotOf s h < s.index.length) :
    ∃ r, itemOrPreNotNull s h = .ok r
      ∧ s.index[refIndex s h]? = some r.ret
      ∧ r.after = s := by
  obtain ⟨cur, hcur⟩ := get_of_lt hin
  obtain ⟨r, hr, hget, hafter⟩ :=
    itemOrPreNotNullLoop_spec s h (h >>> s.keyShifts) cur [h >>> s.keyShifts] hcur
  refine ⟨r, ?_, hget, hafter⟩
  unfold slotOf at hcur
  simp [itemOrPreNotNull, loadPointer_of_get hcur, hr]

theorem stopsAt_iff (s : store Key Value) (h j : Nat) :
    stopsAt s h j = true ↔
      j = 0 ∨ ∃ e, s.index[j]? = some (some e) ∧ e.keyHash ≤ h := by
  unfold stopsAt
  rcases hj : s.index[j]? with _ | _ | e <;> simp

theorem refIndex_le (s : store Key Value) (h : Nat) :
    refIndex s h ≤ slotOf s h :=
  Nat.findGreatest_le _

theorem refIndex_stops (s : store Key Value) (h : Nat) :
    stopsAt s h (refIndex s h) = true :=
  Nat.findGreatest_spec (P := fun j => stopsAt s h j = true) (Nat.zero_le _)
    (by simp [stopsAt])

theorem refIndex_greatest (s : store Key Value) (h k : Nat)
    (hk : refIndex s h < k) (hle : k ≤ slotOf s h) :
    stopsAt s h k = false := by
  have := Nat.findGreatest_is_greatest (P := fun j => stopsAt s h j = true) hk hle
  simpa using this

/-- The method `item` on a hash whose slot exists. -/
theorem item_of_get (s : store Key Value) (h : Nat) (slot : Option (ListElement Key Value))
    (hs : s.index[slotOf s h]? = some slot) :
    item s h = .ok ⟨slot, [slotOf s h], s⟩ := by
  unfold slotOf at hs
  simp [item, slotOf, loadPointer_of_get hs]

/-- The positions read by the loop of `itemOrPreNotNull`, entered at an
existing slot `i`: one after the other, the positions `i - 1` down to the
greatest stopping position at or below `i`. -/
theorem itemOrPreNotNullLoop_loads (s : store Key Value) (h : Nat) :
    ∀ (i : Nat) (cur : Option (ListElement Key Value)) (loads : List Nat),
      s.index[i]? = some cur →
      ∃ r, itemOrPreNotNullLoop s h i cur loads = .ok r
        ∧ r.loads = loads ++
            (List.range' (Nat.findGreatest (fun j => stopsAt s h j = true) i)
              (i - Nat.findGreatest (fun j => stopsAt s h j = true) i)).reverse := by
  intro i
  induction i with
  | zero =>
    intro cur loads _
    exact ⟨⟨cur, loads, s⟩, rfl, by simp⟩
  | succ i ih =>
    intro cur loads hcur
    have hstop := stopsAt_succ_eq s h i cur hcur
    unfold itemOrPreNotNullLoop
    by_cases hn : needPrev h cur = true
    · obtain ⟨prev, hprev⟩ := get_of_lt (Nat.lt_of_succ_lt (lt_of_get hcur))
      have hnot : ¬ (stopsAt s h (i + 1) = true) := by simp [hstop, hn]
      obtain ⟨r, hr, hloads⟩ := ih prev (loads ++ [i]) hprev
      refine ⟨r, ?_, ?_⟩
      · simp [hn, loadPointer_of_get hprev, hr]
      · rw [Nat.findGreatest_of_not hnot, hloads]
        have hle : Nat.findGreatest (fun j => stopsAt s h j = true) i ≤ i :=
          Nat.findGreatest_le i
        have hsub : i + 1 - Nat.findGreatest (fun j => stopsAt s h j = true) i
            = (i - Nat.findGreatest (fun j => stopsAt s h j = true) i) + 1 := by omega
        rw [hsub, List.range'_concat, List.reverse_append]
        have hi : Nat.findGreatest (fun j => stopsAt s h j = true) i
            + 1 * (i - Nat.findGreatest (fun j => stopsAt s h j = true) i) = i := by omega
        rw [hi]
        simp
    · have hyes : stopsAt s h (i + 1) = true := by simp [hstop, hn]
      refine ⟨⟨cur, loads, s⟩, ?_, ?_⟩
      · simp [hn]
      · rw [Nat.findGreatest_eq hyes]
        simp

/-- The positions read by `itemOrPreNotNull` on a hash whose slot exists: the
computed index first, then one by one down to the reference position. -/
theorem itemOrPreNotNull_loads (s : store Key Value) (h : Nat)
    (hin : slotOf s h < s.index.length) :
    ∃ r, itemOrPreNotNull s h = .ok r
      ∧ r.loads = slotOf s h ::
          (List.range' (refIndex s h) (slotOf s h - refIndex s h)).reverse := by
  obtain ⟨cur, hcur⟩ := get_of_lt hin
  obtain ⟨r, hr, hloads⟩ :=
    itemOrPreNotNullLoop_loads s h (h >>> s.keyShifts) cur [h >>> s.keyShifts] hcur
  refine ⟨r, ?_, ?_⟩
  · unfold slotOf at hcur
    simp [itemOrPreNotNull, loadPointer_of_get hcur, hr]
  · rw [hloads]
    rfl

/-- A hash of `w` bits shifted right by `w - k` is below `2 ^ k`. -/
theorem shift_lt_capacity (w k h : Nat) (hk : k ≤ w) (hh : h < 2 ^ w) :
    h >>> (w - k) < 2 ^ k := by
  rw [Nat.shiftRight_eq_div_pow, Nat.div_lt_iff_lt_mul (Nat.pos_pow_of_pos _ (by decide)),
    ← Nat.pow_add]
  have : k + (w - k) = w := by omega
  rw [this]
  exact hh

/-- On a store with no occupied slot, every existing slot is empty. -/
theorem allEmpty_slot {s : store Key Value} (h : allEmpty s) {i : Nat}
    (hi : i < s.index.length) : s.index[i]? = some none := by
  obtain ⟨slot, hslot⟩ := get_of_lt hi
  rw [hslot, allEmpty_get h hslot]

end lookups

section sequences

variable {Key Value : Type}

/-- Offering two entries with different hashes to a slot gives the same
occupant in either order. -/
theorem offer_comm (cur : Option (ListElement Key Value)) (a b : ListElement Key Value)
    (hne : a.keyHash ≠ b.keyHash) :
    offer (some (offer cur a)) b = offer (some (offer cur b)) a := by
  cases cur with
  | none =>
    simp only [offer]
    split_ifs <;> first | rfl | (exfalso; omega)
  | some e =>
    simp only [offer]
    split_ifs <;> first | rfl | (exfalso; omega)

/-- A smaller slot index means a smaller hash. -/
theorem lt_of_shift_lt (a b k : Nat) (h : a >>> k < b >>> k) : a < b := by
  by_contra hc
  have hle : b / 2 ^ k ≤ a / 2 ^ k := Nat.div_le_div_right (Nat.le_of_not_lt hc)
  rw [Nat.shiftRight_eq_div_pow, Nat.shiftRight_eq_div_pow] at h
  omega

/-- Two calls of `addItem` on the same existing slot, one after the other. -/
theorem addItems_two [DecidableEq Key] [DecidableEq Value] (w fuel : Nat)
    (s : store Key Value) (a b : ListElement Key Value)
    (cur : Option (ListElement Key Value))
    (hcur : s.index[slotOf s a.keyHash]? = some cur)
    (hslot : slotOf s b.keyHash = slotOf s a.keyHash) :
    addItems w (fuel + 1) s [a, b]
      = .ok ([if cur.isNone then (s.count + 1) % 2 ^ w else 0, 0],
          ⟨s.keyShifts, if cur.isNone then (s.count + 1) % 2 ^ w else s.count,
            s.index.set (slotOf s a.keyHash) (some (offer (some (offer cur a)) b))⟩) := by
  have h1 := addItem_step w fuel s a cur hcur
  obtain ⟨r, s1, hrun, hks, -, hset, -, -, -⟩ := addItem_get w fuel s a cur hcur
  rw [h1] at hrun
  simp only [Except.ok.injEq, Prod.mk.injEq] at hrun
  obtain ⟨-, hs1⟩ := hrun
  have hslot1 : slotOf s1 b.keyHash = slotOf s a.keyHash := by
    rw [slotOf_congr hks, hslot]
  have hcur1 : s1.index[slotOf s1 b.keyHash]? = some (some (offer cur a)) := by
    rw [hslot1]
    exact hset
  have h2 := addItem_step w fuel s1 b (some (offer cur a)) hcur1
  rw [hslot1] at h2
  subst hs1
  simp only [Option.isNone_some, List.set_set] at h2
  simp only [addItems, h1, h2]
  simp

theorem get_set_self {s : store Key Value} {i : Nat} {cur : Option (ListElement Key Value)}
    (hcur : s.index[i]? = some cur) (x : ListElement Key Value) :
    (s.index.set i (some x))[i]? = some (some x) := by
  rw [List.getElem?_set]
  simp [lt_of_get hcur]

theorem pcInv_mono {s s1 : store Key Value} {i : Nat} (th : Thread Key Value)
    (hmono : ∀ n, slotLe s i n → slotLe s1 i n) (h : pcInv s i th) : pcInv s1 i th := by
  obtain ⟨item, pc⟩ := th
  cases pc with
  | atLoad => exact h
  | loaded el =>
    cases el with
    | none => exact h
    | some element => exact hmono _ h
  | installed => exact hmono _ h
  | returned r => exact hmono _ h

/-- The invariant holds when the threads are spawned. -/
theorem concInv_spawn (s : store Key Value) (items : List (ListElement Key Value)) (i : Nat)
    (cur0 : Option (ListElement Key Value)) (hcur0 : s.index[i]? = some cur0) :
    concInv s items i cur0 (spawn s items) := by
  refine ⟨rfl, ⟨cur0, hcur0⟩, ?_, ?_, ?_, ?_⟩
  · intro k
    simp only [spawn, List.getElem?_map]
    cases items[k]? <;> rfl
  · intro k th hth
    simp only [spawn, List.getElem?_map] at hth
    cases hk : items[k]? with
    | none => rw [hk] at hth; cases hth
    | some x =>
      rw [hk] at hth
      simp only [Option.map_some', Option.some.injEq] at hth
      rw [← hth]
      trivial
  · intro e he
    right
    have : s.index[i]? = some (some e) := he
    rw [hcur0] at this
    injection this
  · intro e0 he0
    subst he0
    exact ⟨e0, hcur0, Nat.le_refl _⟩

theorem pcInv_returned {s : store Key Value} {i : Nat} (th : Thread Key Value)
    (hret : th.hasReturned = true) (h : pcInv s i th) : slotLe s i th.item.keyHash := by
  obtain ⟨item, pc⟩ := th
  cases pc with
  | returned r => exact h
  | atLoad => cases hret
  | loaded el => cases hret
  | installed => cases hret

theorem getElem?_append_length {α : Type} (d r : List α) (a : α) :
    (d ++ a :: r)[d.length]? = some a := by
  rw [List.getElem?_append_right (Nat.le_refl _)]
  simp

theorem set_append_length {α : Type} (d r : List α) (a b : α) :
    (d ++ a :: r).set d.length b = d ++ b :: r := by
  simp

theorem slotNow_of_get {s : store Key Value} {i : Nat} {cur : Option (ListElement Key Value)}
    (hcur : s.index[i]? = some cur) : slotNow s i = cur := by
  simp [slotNow, hcur]

end sequences

section earliest

variable {Key Value : Type} [DecidableEq Key] [DecidableEq Value]

/-- The occupant of a slot after a returned run of `addItems` is either the
occupant the run started with, no offered entry of the slot having a smaller
hash, or an offered entry of the slot whose hash is strictly smaller than that
of the starting occupant and of every entry of the slot offered before it, and
not larger than that of any entry of the slot offered after it. -/
theorem addItems_earliest (w fuel : Nat) (items : List (ListElement Key Value)) :
    ∀ (s s2 : store Key Value) (rets : List Nat),
      addItems w (fuel + 1) s items = .ok (rets, s2) →
      ∀ (i : Nat) (e : ListElement Key Value), s2.index[i]? = some (some e) →
        (s.index[i]? = some (some e)
            ∧ ∀ y ∈ items, slotOf s y.keyHash = i → e.keyHash ≤ y.keyHash)
          ∨ ∃ pre post, items = pre ++ e :: post ∧ slotOf s e.keyHash = i
              ∧ (∀ y ∈ pre, slotOf s y.keyHash = i → e.keyHash < y.keyHash)
              ∧ (∀ e0, s.index[i]? = some (some e0) → e.keyHash < e0.keyHash)
              ∧ ∀ y ∈ post, slotOf s y.keyHash = i → e.keyHash ≤ y.keyHash := by
  induction items with
  | nil =>
    intro s s2 rets h i e he
    simp only [addItems, Except.ok.injEq, Prod.mk.injEq] at h
    rw [← h.2] at he
    exact Or.inl ⟨he, by simp⟩
  | cons x rest ih =>
    intro s s2 rets h i e he
    obtain ⟨r, s1, rs, hx, hrest, -⟩ := addItems_cons_inv h
    obtain ⟨cur, hcur, hks, -, hset, hother, -, -⟩ := addItem_facts hx
    have hslot : ∀ y : Nat, slotOf s1 y = slotOf s y := slotOf_congr hks
    rcases ih s1 s2 rs hrest i e he with ⟨h1, hle⟩ | ⟨pre, post, hsplit, hsl, hpre, hold, hpost⟩
    · by_cases hi : i = slotOf s x.keyHash
      · subst hi
        rw [hset] at h1
        have heq : offer cur x = e := by injection h1 with h1; injection h1
        rcases offer_cases cur x with ⟨hc, hlt⟩ | hc
        · right
          have hex : e = x := by rw [← heq, hc]
          subst hex
          refine ⟨[], rest, rfl, rfl, by simp, ?_, ?_⟩
          · intro e0 he0
            rw [hcur] at he0
            exact hlt e0 (by injection he0)
          · intro y hy hys
            exact hle y hy ((hslot _).trans hys)
        · left
          refine ⟨by rw [hcur, hc, heq], ?_⟩
          intro y hy hys
          rcases List.mem_cons.mp hy with hy | hy
          · subst hy
            rw [← heq]
            exact offer_le_item cur y
          · exact hle y hy ((hslot _).trans hys)
      · left
        refine ⟨by rw [← hother i hi]; exact h1, ?_⟩
        intro y hy hys
        rcases List.mem_cons.mp hy with hy | hy
        · subst hy
          exact absurd hys.symm hi
        · exact hle y hy ((hslot _).trans hys)
    · right
      refine ⟨x :: pre, post, by rw [hsplit]; rfl, (hslot _).symm.trans hsl, ?_, ?_, ?_⟩
      · intro y hy hys
        rcases List.mem_cons.mp hy with hy | hy
        · subst hy
          subst hys
          exact Nat.lt_of_lt_of_le (hold _ hset) (offer_le_item cur y)
        · exact hpre y hy ((hslot _).trans hys)
      · intro e0 he0
        by_cases hi : i = slotOf s x.keyHash
        · subst hi
          rw [hcur] at he0
          have hc : cur = some e0 := by injection he0
          subst hc
          exact Nat.lt_of_lt_of_le (hold _ hset) (offer_le_cur e0 x)
        · exact hold e0 (by rw [hother i hi]; exact he0)
      · intro y hy hys
        exact hpost y hy ((hslot _).trans hys)

end earliest

section interleavings

variable {Key Value : Type} [DecidableEq Key] [DecidableEq Value]

/-- One atomic step of a thread whose slot `i` exists: the step is defined,
the thread keeps its entry, the hash held by slot `i` does not grow, the
thread's knowledge about the slot holds afterwards, and a new occupant of the
slot is the thread's entry. -/
theorem threadStep_inv (w : Nat) (s : store Key Value) (th : Thread Key Value) (i : Nat)
    (cur : Option (ListElement Key Value))
    (hi : slotOf s th.item.keyHash = i) (hcur : s.index[i]? = some cur)
    (hpc : pcInv s i th) :
    ∃ s1 th1, threadStep w s th = .ok (s1, th1)
      ∧ th1.item = th.item
      ∧ s1.keyShifts = s.keyShifts
      ∧ s1.index.length = s.index.length
      ∧ (∀ n, slotLe s i n → slotLe s1 i n)
      ∧ pcInv s1 i th1
      ∧ ∀ e, s1.index[i]? = some (some e) → s.index[i]? = some (some e) ∨ e = th.item := by
  obtain ⟨item, pc⟩ := th
  unfold slotOf at hi
  simp only at hi
  subst hi
  cases pc with
  | atLoad =>
    refine ⟨s, ⟨item, .loaded cur⟩, by simp [threadStep, loadPointer, hcur], rfl, rfl, rfl,
      fun n h => h, ?_, fun e h => Or.inl h⟩
    cases cur with
    | none => simp [pcInv]
    | some el => exact ⟨el, hcur, Nat.le_refl _⟩
  | loaded el =>
    cases el with
    | none =>
      by_cases hc : cur = none
      · subst hc
        refine ⟨{ s with index := s.index.set (item.keyHash >>> s.keyShifts) (some item) },
          ⟨item, .installed⟩, by simp [threadStep, compareAndSwapPointer, hcur], rfl, rfl,
          by simp, ?_, ?_, ?_⟩
        · rintro n ⟨e, he, -⟩
          rw [hcur] at he
          cases he
        · exact ⟨item, get_set_self hcur item, Nat.le_refl _⟩
        · intro e he
          simp only at he
          rw [get_set_self hcur item] at he
          right
          injection he with he
          injection he with he
          exact he.symm
      · refine ⟨s, ⟨item, .atLoad⟩, by simp [threadStep, compareAndSwapPointer, hcur, hc],
          rfl, rfl, rfl, fun n h => h, by simp [pcInv], fun e h => Or.inl h⟩
    | some element =>
      by_cases hlt : item.keyHash < element.keyHash
      · by_cases hc : cur = some element
        · subst hc
          refine ⟨{ s with index := s.index.set (item.keyHash >>> s.keyShifts) (some item) },
            ⟨item, .returned 0⟩,
            by simp [threadStep, compareAndSwapPointer, hcur, hlt], rfl, rfl,
            by simp, ?_, ?_, ?_⟩
          · rintro n ⟨e, he, hle⟩
            rw [hcur] at he
            have heq : element = e := by injection he with he; injection he
            subst heq
            exact ⟨item, get_set_self hcur item, by omega⟩
          · exact ⟨item, get_set_self hcur item, Nat.le_refl _⟩
          · intro e he
            simp only at he
            rw [get_set_self hcur item] at he
            right
            injection he with he
            injection he with he
            exact he.symm
        · refine ⟨s, ⟨item, .atLoad⟩,
            by simp [threadStep, compareAndSwapPointer, hcur, hlt, hc],
            rfl, rfl, rfl, fun n h => h, by simp [pcInv], fun e h => Or.inl h⟩
      · refine ⟨s, ⟨item, .returned 0⟩, by simp [threadStep, hlt], rfl, rfl, rfl,
          fun n h => h, ?_, fun e h => Or.inl h⟩
        obtain ⟨e, he, hle⟩ := hpc
        exact ⟨e, he, by simp only at hle ⊢; omega⟩
  | installed =>
    refine ⟨{ s with count := (s.count + 1) % 2 ^ w },
      ⟨item, .returned ((s.count + 1) % 2 ^ w)⟩, by simp [threadStep], rfl, rfl, rfl,
      fun n h => h, hpc, fun e h => Or.inl h⟩
  | returned r =>
    exact ⟨s, ⟨item, .returned r⟩, by simp [threadStep], rfl, rfl, rfl,
      fun n h => h, hpc, fun e h => Or.inl h⟩

/-- Every scheduled step is defined and keeps the invariant. -/
theorem sysStep_inv (w : Nat) (s0 : store Key Value) (items : List (ListElement Key Value))
    (i : Nat) (cur0 : Option (ListElement Key Value))
    (hsame : ∀ x ∈ items, slotOf s0 x.keyHash = i)
    (c : Conc Key Value) (t : Nat) (hinv : concInv s0 items i cur0 c) :
    ∃ c1, sysStep w c t = .ok c1 ∧ concInv s0 items i cur0 c1 := by
  obtain ⟨hks, ⟨cur, hcur⟩, hitems, hpcs, horigin, hbound⟩ := hinv
  cases hth : c.threads[t]? with
  | none =>
    exact ⟨c, by simp [sysStep, hth], hks, ⟨cur, hcur⟩, hitems, hpcs, horigin, hbound⟩
  | some th =>
    have hitem : items[t]? = some th.item := by
      rw [← hitems t, hth]
      rfl
    have hmem : th.item ∈ items := List.getElem?_mem hitem
    have hslot : slotOf c.mem th.item.keyHash = i := by
      rw [slotOf_congr hks]
      exact hsame _ hmem
    obtain ⟨s1, th1, hstep, hit1, hks1, hlen1, hmono, hpc1, horig1⟩ :=
      threadStep_inv w c.mem th i cur hslot hcur (hpcs t th hth)
    have ht : t < c.threads.length := by
      by_contra hc
      rw [List.getElem?_eq_none (Nat.le_of_not_lt hc)] at hth
      cases hth
    refine ⟨⟨s1, c.threads.set t th1⟩, by simp [sysStep, hth, hstep], hks1.trans hks, ?_, ?_,
      ?_, ?_, ?_⟩
    · exact get_of_lt (by rw [hlen1]; exact lt_of_get hcur)
    · intro k
      simp only
      rw [List.getElem?_set]
      by_cases hk : t = k
      · subst hk
        simp only [if_true, ht, Option.map_some']
        rw [hit1, hitem]
      · simp only [hk, if_false]
        exact hitems k
    · intro k th2 hth2
      simp only at hth2 ⊢
      rw [List.getElem?_set] at hth2
      by_cases hk : t = k
      · subst hk
        simp only [if_true, ht, Option.some.injEq] at hth2
        rw [← hth2]
        exact hpc1
      · simp only [hk, if_false] at hth2
        exact pcInv_mono th2 hmono (hpcs k th2 hth2)
    · intro e he
      rcases horig1 e he with h1 | h1
      · exact horigin e h1
      · left
        rw [h1]
        exact hmem
    · intro e0 he0
      exact hmono _ (hbound e0 he0)

/-- Every interleaving is defined and ends in a state that satisfies the
invariant. -/
theorem runSchedule_inv (w : Nat) (s0 : store Key Value)
    (items : List (ListElement Key Value)) (i : Nat) (cur0 : Option (ListElement Key Value))
    (hsame : ∀ x ∈ items, slotOf s0 x.keyHash = i) (sched : List Nat) :
    ∀ c : Conc Key Value, concInv s0 items i cur0 c →
      ∃ c1, runSchedule w c sched = .ok c1 ∧ concInv s0 items i cur0 c1 := by
  induction sched with
  | nil => intro c hinv; exact ⟨c, rfl, hinv⟩
  | cons t rest ih =>
    intro c hinv
    obtain ⟨c1, hstep, hinv1⟩ := sysStep_inv w s0 items i cur0 hsame c t hinv
    obtain ⟨c2, hrun, hinv2⟩ := ih c1 hinv1
    exact ⟨c2, by simp [runSchedule, hstep, hrun], hinv2⟩

theorem runSchedule_cons {w : Nat} {c c1 : Conc Key Value} {t : Nat} (rest : List Nat)
    (h : sysStep w c t = .ok c1) :
    runSchedule w c (t :: rest) = runSchedule w c1 rest := by
  simp [runSchedule, h]

/-- The step of the thread that stands behind the threads `before`. -/
theorem sysStep_at {w : Nat} {s s1 : store Key Value} {th th1 : Thread Key Value}
    (before after : List (Thread Key Value)) (h : threadStep w s th = .ok (s1, th1)) :
    sysStep w ⟨s, before ++ th :: after⟩ before.length
      = .ok ⟨s1, before ++ th1 :: after⟩ := by
  unfold sysStep
  simp only [getElem?_append_length, h, set_append_length]

/-- Three steps of a thread that is scheduled alone, from the start of its
call on an existing slot, do what the sequential `addItem` does: the thread has
returned the same value and the store is the same. -/
theorem solo_steps (w fuel : Nat) (s : store Key Value) (x : ListElement Key Value)
    (cur : Option (ListElement Key Value)) (before after : List (Thread Key Value))
    (tail : List Nat) (hcur : s.index[slotOf s x.keyHash]? = some cur) :
    ∃ r s1, addItem w (fuel + 1) s x = .ok (r, s1)
      ∧ runSchedule w ⟨s, before ++ ⟨x, .atLoad⟩ :: after⟩
          (before.length :: before.length :: before.length :: tail)
        = runSchedule w ⟨s1, before ++ ⟨x, .returned r⟩ :: after⟩ tail := by
  refine ⟨_, _, addItem_step w fuel s x cur hcur, ?_⟩
  unfold slotOf at hcur ⊢
  have e1 : threadStep w s ⟨x, .atLoad⟩ = .ok (s, ⟨x, .loaded cur⟩) := by
    simp [threadStep, loadPointer, hcur]
  rw [runSchedule_cons _ (sysStep_at before after e1)]
  cases cur with
  | none =>
    have e2 : threadStep w s ⟨x, .loaded none⟩
        = .ok ({ s with index := s.index.set (x.keyHash >>> s.keyShifts) (some x) },
            ⟨x, .installed⟩) := by
      simp [threadStep, compareAndSwapPointer, hcur]
    have e3 : threadStep w { s with index := s.index.set (x.keyHash >>> s.keyShifts) (some x) }
          ⟨x, .installed⟩
        = .ok (⟨s.keyShifts, (s.count + 1) % 2 ^ w,
              s.index.set (x.keyHash >>> s.keyShifts) (some x)⟩,
            ⟨x, .returned ((s.count + 1) % 2 ^ w)⟩) := by
      simp [threadStep]
    rw [runSchedule_cons _ (sysStep_at before after e2),
      runSchedule_cons _ (sysStep_at before after e3)]
    rfl
  | some e =>
    by_cases hlt : x.keyHash < e.keyHash
    · have e2 : threadStep w s ⟨x, .loaded (some e)⟩
          = .ok ({ s with index := s.index.set (x.keyHash >>> s.keyShifts) (some x) },
              ⟨x, .returned 0⟩) := by
        simp [threadStep, compareAndSwapPointer, hcur, hlt]
      have e3 : threadStep w { s with index := s.index.set (x.keyHash >>> s.keyShifts) (some x) }
            ⟨x, .returned 0⟩
          = .ok ({ s with index := s.index.set (x.keyHash >>> s.keyShifts) (some x) },
              ⟨x, .returned 0⟩) := by
        simp [threadStep]
      rw [runSchedule_cons _ (sysStep_at before after e2),
        runSchedule_cons _ (sysStep_at before after e3)]
      simp [offer, hlt]
    · have e2 : threadStep w s ⟨x, .loaded (some e)⟩ = .ok (s, ⟨x, .returned 0⟩) := by
        simp [threadStep, hlt]
      have e3 : threadStep w s ⟨x, .returned 0⟩ = .ok (s, ⟨x, .returned 0⟩) := by
        simp [threadStep]
      rw [runSchedule_cons _ (sysStep_at before after e2),
        runSchedule_cons _ (sysStep_at before after e3)]
      have hsame := set_same hcur
      simp [offer, hlt, hsame]

/-- The schedule that runs the threads one after the other is an interleaving
in which every thread returns; it ends in the store that the sequential run of
`addItems` produces. -/
theorem soloSchedule_run (w fuel : Nat) (todo : List (ListElement Key Value)) :
    ∀ (s : store Key Value) (before : List (Thread Key Value)),
      (∀ x ∈ todo, slotOf s x.keyHash < s.index.length) →
      before.all Thread.hasReturned = true →
      ∃ rets s2 c, addItems w (fuel + 1) s todo = .ok (rets, s2)
        ∧ runSchedule w ⟨s, before ++ todo.map (fun x => ⟨x, .atLoad⟩)⟩
            (soloSchedule before.length todo.length) = .ok c
        ∧ c.mem = s2 ∧ allReturned c = true := by
  induction todo with
  | nil =>
    intro s before _ hall
    exact ⟨[], s, ⟨s, before ++ []⟩, rfl, rfl, rfl, by simpa [allReturned] using hall⟩
  | cons x rest ih =>
    intro s before hin hall
    obtain ⟨cur, hcur⟩ := get_of_lt (hin x (List.mem_cons_self _ _))
    obtain ⟨r, s1, hadd, hsolo⟩ :=
      solo_steps w fuel s x cur before (rest.map (fun x => ⟨x, .atLoad⟩))
        (soloSchedule (before.length + 1) rest.length) hcur
    obtain ⟨-, -, hks, hlen, -⟩ := addItem_facts hadd
    have hin1 : ∀ y ∈ rest, slotOf s1 y.keyHash < s1.index.length := by
      intro y hy
      rw [slotOf_congr hks, hlen]
      exact hin y (List.mem_cons_of_mem _ hy)
    have hall1 : (before ++ [(⟨x, .returned r⟩ : Thread Key Value)]).all
        Thread.hasReturned = true := by
      rw [List.all_append, hall]
      rfl
    obtain ⟨rs, s2, c, hrest, hrun, hmem, hdone⟩ :=
      ih s1 (before ++ [(⟨x, .returned r⟩ : Thread Key Value)]) hin1 hall1
    refine ⟨r :: rs, s2, c, by simp [addItems, hadd, hrest], ?_, hmem, hdone⟩
    simp only [List.map_cons, List.length_cons, soloSchedule]
    rw [hsolo]
    simp only [List.length_append, List.length_singleton, List.append_assoc,
      List.singleton_append] at hrun
    exact hrun

end interleavings

section weights

variable {α : Type}

theorem list_set_same (l : List α) (t : Nat) (a : α) (h : l[t]? = some a) :
    l.set t a = l := by
  apply List.ext_getElem?
  intro j
  rw [List.getElem?_set]
  by_cases hj : t = j
  · subst hj
    have ht : t < l.length := by
      by_contra hc
      rw [List.getElem?_eq_none (Nat.le_of_not_lt hc)] at h
      cases h
    simp [ht, h]
  · simp [hj]

/-- Replacing the element at position `t` changes a sum of weights by the
difference of the two weights. -/
theorem sum_map_set (f : α → Nat) (l : List α) :
    ∀ (t : Nat) (a b : α), l[t]? = some a →
      ((l.set t b).map f).sum + f a = (l.map f).sum + f b := by
  induction l with
  | nil => intro t a b h; simp at h
  | cons x rest ih =>
    intro t a b h
    cases t with
    | zero =>
      simp only [List.getElem?_cons_zero, Option.some.injEq] at h
      subst h
      simp only [List.set_cons_zero, List.map_cons, List.sum_cons]
      omega
    | succ t =>
      simp only [List.getElem?_cons_succ] at h
      have := ih t a b h
      simp only [List.set_cons_succ, List.map_cons, List.sum_cons]
      omega

/-- Weights that grow by at most 2 each grow the sum by at most twice the
length. -/
theorem sum_map_le_add (f g : α → Nat) (hfg : ∀ x, g x ≤ f x + 2) (l : List α) :
    (l.map g).sum ≤ (l.map f).sum + 2 * l.length := by
  induction l with
  | nil => simp
  | cons x rest ih =>
    have := hfg x
    simp only [List.map_cons, List.sum_cons, List.length_cons]
    omega

theorem sum_map_le_mul (f : α → Nat) (n : Nat) (hf : ∀ x, f x ≤ n) (l : List α) :
    (l.map f).sum ≤ l.length * n := by
  induction l with
  | nil => simp
  | cons x rest ih =>
    have := hf x
    simp only [List.map_cons, List.sum_cons, List.length_cons, Nat.succ_mul]
    omega

theorem le_sum_map_of_get (f : α → Nat) (l : List α) :
    ∀ (t : Nat) (a : α), l[t]? = some a → f a ≤ (l.map f).sum := by
  induction l with
  | nil => intro t a h; simp at h
  | cons x rest ih =>
    intro t a h
    cases t with
    | zero =>
      simp only [List.getElem?_cons_zero, Option.some.injEq] at h
      subst h
      simp only [List.map_cons, List.sum_cons]
      omega
    | succ t =>
      simp only [List.getElem?_cons_succ] at h
      have := ih t a h
      simp only [List.map_cons, List.sum_cons]
      omega

end weights

section progress

variable {Key Value : Type} [DecidableEq Key] [DecidableEq Value]

theorem pcWeight_le_add_two (n : Nat) (slot slot1 : Option (ListElement Key Value))
    (pc : Pc Key Value) : pcWeight n slot1 pc ≤ pcWeight n slot pc + 2 := by
  cases pc <;> simp only [pcWeight] <;> (try split_ifs) <;> omega

theorem pcWeight_le (n : Nat) (slot : Option (ListElement Key Value)) (pc : Pc Key Value) :
    pcWeight n slot pc ≤ 2 * n + 4 := by
  cases pc <;> simp only [pcWeight] <;> (try split_ifs) <;> omega

theorem pcWeight_loaded_ge (n : Nat) (slot el : Option (ListElement Key Value)) :
    2 * n + 2 ≤ pcWeight n slot (.loaded el) := by
  simp only [pcWeight]
  split_ifs <;> omega

theorem pcWeight_pos (n : Nat) (slot : Option (ListElement Key Value))
    (th : Thread Key Value) (h : th.hasReturned = false) : 1 ≤ pcWeight n slot th.pc := by
  obtain ⟨item, pc⟩ := th
  cases pc with
  | returned r => cases h
  | atLoad => simp [pcWeight]
  | installed => simp [pcWeight]
  | loaded el => exact Nat.le_trans (by omega) (pcWeight_loaded_ge n slot el)

/-- A thread that has returned takes no further step. -/
theorem threadStep_returned (w : Nat) (s : store Key Value) (th : Thread Key Value)
    (h : th.hasReturned = true) : threadStep w s th = .ok (s, th) := by
  obtain ⟨item, pc⟩ := th
  cases pc with
  | returned r => simp [threadStep]
  | atLoad => cases h
  | installed => cases h
  | loaded el => cases h

/-- A step of a thread that has not returned, on its existing slot `i`: either
the slot keeps its content and the thread's weight drops, or the thread had
loaded a reference and afterwards needs at most one more step. -/
theorem threadStep_weight (w n : Nat) (s s1 : store Key Value) (th th1 : Thread Key Value)
    (i : Nat) (cur : Option (ListElement Key Value))
    (hi : slotOf s th.item.keyHash = i) (hcur : s.index[i]? = some cur)
    (hnot : th.hasReturned = false) (hstep : threadStep w s th = .ok (s1, th1)) :
    (slotNow s1 i = cur ∧ pcWeight n cur th1.pc < pcWeight n cur th.pc)
      ∨ (2 * n + 2 ≤ pcWeight n (slotNow s1 i) th.pc
          ∧ pcWeight n (slotNow s1 i) th1.pc ≤ 1) := by
  obtain ⟨item, pc⟩ := th
  unfold slotOf at hi
  simp only at hi
  subst hi
  cases pc with
  | returned r => cases hnot
  | atLoad =>
    simp only [threadStep, loadPointer, hcur, Except.ok.injEq, Prod.mk.injEq] at hstep
    obtain ⟨h1, h2⟩ := hstep
    subst h1 h2
    left
    exact ⟨slotNow_of_get hcur, by simp [pcWeight]⟩
  | installed =>
    simp only [threadStep, Except.ok.injEq, Prod.mk.injEq] at hstep
    obtain ⟨h1, h2⟩ := hstep
    subst h1 h2
    left
    exact ⟨slotNow_of_get hcur, by simp [pcWeight]⟩
  | loaded el =>
    cases el with
    | none =>
      by_cases hc : cur = none
      · subst hc
        simp only [threadStep, compareAndSwapPointer, hcur, if_true, Except.ok.injEq,
          Prod.mk.injEq] at hstep
        obtain ⟨h1, h2⟩ := hstep
        subst h1 h2
        right
        exact ⟨pcWeight_loaded_ge n _ _, by simp [pcWeight]⟩
      · simp only [threadStep, compareAndSwapPointer, hcur, hc, if_false, Except.ok.injEq,
          Prod.mk.injEq] at hstep
        obtain ⟨h1, h2⟩ := hstep
        subst h1 h2
        left
        refine ⟨slotNow_of_get hcur, ?_⟩
        have hne : ¬ (none = cur) := fun h => hc h.symm
        simp [pcWeight, hne]
    | some element =>
      by_cases hlt : item.keyHash < element.keyHash
      · by_cases hc : cur = some element
        · subst hc
          simp only [threadStep, compareAndSwapPointer, hcur, hlt, if_true, Except.ok.injEq,
            Prod.mk.injEq] at hstep
          obtain ⟨h1, h2⟩ := hstep
          subst h1 h2
          right
          exact ⟨pcWeight_loaded_ge n _ _, by simp [pcWeight]⟩
        · simp only [threadStep, compareAndSwapPointer, hcur, hlt, hc, if_true, if_false,
            Except.ok.injEq, Prod.mk.injEq] at hstep
          obtain ⟨h1, h2⟩ := hstep
          subst h1 h2
          left
          refine ⟨slotNow_of_get hcur, ?_⟩
          have hne : ¬ (some element = cur) := fun h => hc h.symm
          simp [pcWeight, hne]
      · simp only [threadStep, hlt, if_false, Except.ok.injEq, Prod.mk.injEq] at hstep
        obtain ⟨h1, h2⟩ := hstep
        subst h1 h2
        left
        refine ⟨slotNow_of_get hcur, ?_⟩
        have := pcWeight_loaded_ge n cur (some element)
        simp only [pcWeight] at this ⊢
        omega

/-- A scheduled step never raises the potential, and lowers it when the
scheduled thread has not returned. -/
theorem sysStep_potential (w : Nat) (s0 : store Key Value)
    (items : List (ListElement Key Value)) (i : Nat) (cur0 : Option (ListElement Key Value))
    (hsame : ∀ x ∈ items, slotOf s0 x.keyHash = i)
    (c c1 : Conc Key Value) (t : Nat) (hinv : concInv s0 items i cur0 c)
    (hstep : sysStep w c t = .ok c1) :
    potential i c1 ≤ potential i c
      ∧ (isReturned c t = false → potential i c1 < potential i c) := by
  obtain ⟨hks, ⟨cur, hcur⟩, hitems, hpcs, -, -⟩ := hinv
  cases hth : c.threads[t]? with
  | none =>
    simp only [sysStep, hth, Except.ok.injEq] at hstep
    subst hstep
    exact ⟨Nat.le_refl _, by simp [isReturned, hth]⟩
  | some th =>
    by_cases hr : th.hasReturned = true
    · simp only [sysStep, hth, threadStep_returned w c.mem th hr, Except.ok.injEq] at hstep
      rw [list_set_same c.threads t th hth] at hstep
      subst hstep
      exact ⟨Nat.le_refl _, by simp [isReturned, hth, hr]⟩
    · have hr2 : th.hasReturned = false := by simpa using hr
      have hitem : items[t]? = some th.item := by
        rw [← hitems t, hth]
        rfl
      have hslot : slotOf c.mem th.item.keyHash = i := by
        rw [slotOf_congr hks]
        exact hsame _ (List.getElem?_mem hitem)
      obtain ⟨s1, th1, hts, -⟩ := threadStep_inv w c.mem th i cur hslot hcur (hpcs t th hth)
      simp only [sysStep, hth, hts, Except.ok.injEq] at hstep
      subst hstep
      have hlt : potential i ⟨s1, c.threads.set t th1⟩ < potential i c := by
        unfold potential
        simp only [List.length_set]
        rcases threadStep_weight w c.threads.length c.mem s1 th th1 i cur hslot hcur hr2 hts
          with ⟨hsl, hw⟩ | ⟨hge, hle⟩
        · rw [hsl, slotNow_of_get hcur]
          have := sum_map_set (fun th => pcWeight c.threads.length cur th.pc)
            c.threads t th th1 hth
          simp only at this
          omega
        · have h1 := sum_map_set
            (fun th => pcWeight c.threads.length (slotNow s1 i) th.pc) c.threads t th th1 hth
          have h2 := sum_map_le_add
            (fun th : Thread Key Value => pcWeight c.threads.length (slotNow c.mem i) th.pc)
            (fun th => pcWeight c.threads.length (slotNow s1 i) th.pc)
            (fun th => pcWeight_le_add_two _ _ _ th.pc) c.threads
          simp only at h1 h2
          omega
      exact ⟨Nat.le_of_lt hlt, fun _ => hlt⟩

/-- A thread that has returned stays returned. -/
theorem isReturned_step (w : Nat) (c c1 : Conc Key Value) (u t : Nat)
    (hstep : sysStep w c u = .ok c1) (h : isReturned c t = true) :
    isReturned c1 t = true := by
  cases hu : c.threads[u]? with
  | none =>
    simp only [sysStep, hu, Except.ok.injEq] at hstep
    subst hstep
    exact h
  | some th =>
    by_cases hut : u = t
    · subst hut
      have hr : th.hasReturned = true := by simpa [isReturned, hu] using h
      simp only [sysStep, hu, threadStep_returned w c.mem th hr, Except.ok.injEq] at hstep
      rw [list_set_same c.threads u th hu] at hstep
      subst hstep
      exact h
    · cases hts : threadStep w c.mem th with
      | error f => simp [sysStep, hu, hts] at hstep
      | ok p =>
        obtain ⟨s1, th1⟩ := p
        simp only [sysStep, hu, hts, Except.ok.injEq] at hstep
        subst hstep
        unfold isReturned at h ⊢
        simp only
        rw [List.getElem?_set_ne hut]
        exact h

theorem runSchedule_cons_inv {w : Nat} {c c2 : Conc Key Value} {u : Nat} {rest : List Nat}
    (h : runSchedule w c (u :: rest) = .ok c2) :
    ∃ c1, sysStep w c u = .ok c1 ∧ runSchedule w c1 rest = .ok c2 := by
  cases hs : sysStep w c u with
  | error f => simp [runSchedule, hs] at h
  | ok c1 => exact ⟨c1, rfl, by simpa [runSchedule, hs] using h⟩

theorem isReturned_run (w : Nat) (t : Nat) (sched : List Nat) :
    ∀ c c1 : Conc Key Value, runSchedule w c sched = .ok c1 →
      isReturned c t = true → isReturned c1 t = true := by
  induction sched with
  | nil =>
    intro c c1 h hr
    simp only [runSchedule, Except.ok.injEq] at h
    subst h
    exact hr
  | cons u rest ih =>
    intro c c1 h hr
    obtain ⟨c2, hstep, hrun⟩ := runSchedule_cons_inv h
    exact ih c2 c1 hrun (isReturned_step w c c2 u t hstep hr)

/-- Along an interleaving the potential drops by at least one for every time
a thread was scheduled that has still not returned at the end. -/
theorem runSchedule_potential (w : Nat) (s0 : store Key Value)
    (items : List (ListElement Key Value)) (i : Nat) (cur0 : Option (ListElement Key Value))
    (hsame : ∀ x ∈ items, slotOf s0 x.keyHash = i) (t : Nat) (sched : List Nat) :
    ∀ c c1 : Conc Key Value, concInv s0 items i cur0 c →
      runSchedule w c sched = .ok c1 → isReturned c1 t = false →
      potential i c1 + sched.count t ≤ potential i c := by
  induction sched with
  | nil =>
    intro c c1 _ h _
    simp only [runSchedule, Except.ok.injEq] at h
    subst h
    simp
  | cons u rest ih =>
    intro c c1 hinv h hnot
    obtain ⟨c2, hstep, hrun⟩ := runSchedule_cons_inv h
    obtain ⟨c3, hstep3, hinv2⟩ := sysStep_inv w s0 items i cur0 hsame c u hinv
    rw [hstep] at hstep3
    simp only [Except.ok.injEq] at hstep3
    subst hstep3
    have hrec := ih c2 c1 hinv2 hrun hnot
    obtain ⟨hle, hlt⟩ := sysStep_potential w s0 items i cur0 hsame c c2 u hinv hstep
    by_cases hut : u = t
    · subst hut
      have hc : isReturned c u = false := by
        cases hq : isReturned c u with
        | false => rfl
        | true =>
          have := isReturned_run w u (u :: rest) c c1 h hq
          rw [this] at hnot
          cases hnot
      have := hlt hc
      simp only [List.count_cons_self]
      omega
    · rw [List.count_cons_of_ne (Ne.symm hut)]
      omega

/-- The potential is at most `n * (2 * n + 4)` for `n` threads. -/
theorem potential_le (i : Nat) (c : Conc Key Value) :
    potential i c ≤ c.threads.length * (2 * c.threads.length + 4) :=
  sum_map_le_mul _ _ (fun th => pcWeight_le _ _ th.pc) c.threads

/-- While some thread has not returned the potential is positive. -/
theorem potential_pos (i : Nat) (c : Conc Key Value) (t : Nat)
    (h : isReturned c t = false) : 1 ≤ potential i c := by
  unfold isReturned at h
  cases hth : c.threads[t]? with
  | none => simp [hth] at h
  | some th =>
    rw [hth] at h
    simp only at h
    exact Nat.le_trans (pcWeight_pos c.threads.length (slotNow c.mem i) th h)
      (le_sum_map_of_get (fun th => pcWeight c.threads.length (slotNow c.mem i) th.pc)
        c.threads t th hth)

/-- A thread that has not returned at the end of an interleaving of `n`
calls was scheduled fewer than `n * (2 * n + 4)` times. -/
theorem runSchedule_bound (w : Nat) (s : store Key Value)
    (items : List (ListElement Key Value)) (i : Nat) (cur0 : Option (ListElement Key Value))
    (hcur0 : s.index[i]? = some cur0) (hsame : ∀ x ∈ items, slotOf s x.keyHash = i)
    (sched : List Nat) (c : Conc Key Value) (t : Nat)
    (hrun : runSchedule w (spawn s items) sched = .ok c) (hnot : isReturned c t = false) :
    sched.count t < items.length * (2 * items.length + 4) := by
  have h1 := runSchedule_potential w s items i cur0 hsame t sched (spawn s items) c
    (concInv_spawn s items i cur0 hcur0) hrun hnot
  have h2 := potential_le i (spawn s items)
  have h3 := potential_pos i c t hnot
  have h4 : (spawn s items).threads.length = items.length := by simp [spawn]
  rw [h4] at h2
  omega

/-- Once every thread has returned, no step changes anything. -/
theorem runSchedule_done (w : Nat) (sched : List Nat) :
    ∀ c : Conc Key Value, allReturned c = true → runSchedule w c sched = .ok c := by
  induction sched with
  | nil => intro c _; rfl
  | cons u rest ih =>
    intro c hall
    have hstep : sysStep w c u = .ok c := by
      cases hu : c.threads[u]? with
      | none => simp [sysStep, hu]
      | some th =>
        have hr : th.hasReturned = true :=
          List.all_eq_true.mp hall th (List.getElem?_mem hu)
        simp only [sysStep, hu, threadStep_returned w c.mem th hr]
        rw [list_set_same c.threads u th hu]
    rw [runSchedule_cons rest hstep]
    exact ih c hall

end progress

section claims

variable {Key Value : Type}

/-- C1 (minimum watermark).  From a store whose slots are all empty, any
sequence of `addItem` calls on hashes that address existing slots returns, and
then for every slot `i`: the slot is occupied exactly when some offered entry
had `keyHash >> keyShifts = i`, and its occupant is an offered entry of slot
`i` whose hash is the least among the offered entries of slot `i`.  The hashes
held by the slots are the same for every order of the calls. -/
theorem minimum_watermark [DecidableEq Key] [DecidableEq Value] (w fuel : Nat)
    (s : store Key Value)
    (items : List (ListElement Key Value)) (hempty : allEmpty s)
    (hin : ∀ x ∈ items, slotOf s x.keyHash < s.index.length) :
    ∃ rets s2, addItems w (fuel + 1) s items = .ok (rets, s2)
      ∧ (∀ i, i < s.index.length →
          ((∃ e, s2.index[i]? = some (some e)) ↔ ∃ x ∈ items, slotOf s x.keyHash = i)
          ∧ ∀ e, s2.index[i]? = some (some e) →
              e ∈ items ∧ slotOf s e.keyHash = i
                ∧ ∀ x ∈ items, slotOf s x.keyHash = i → e.keyHash ≤ x.keyHash)
      ∧ ∀ others : List (ListElement Key Value), others.Perm items →
          ∃ rets3 s3, addItems w (fuel + 1) s others = .ok (rets3, s3)
            ∧ slotHashes s3 = slotHashes s2 := by
  obtain ⟨rets, s2, hrun, hlen, hchar⟩ := addItems_watermark w fuel s items hempty hin
  refine ⟨rets, s2, hrun, hchar, ?_⟩
  intro others hperm
  have hin3 : ∀ x ∈ others, slotOf s x.keyHash < s.index.length :=
    fun x hx => hin x (hperm.mem_iff.mp hx)
  obtain ⟨rets3, s3, hrun3, hlen3, hchar3⟩ := addItems_watermark w fuel s others hempty hin3
  refine ⟨rets3, s3, hrun3, ?_⟩
  unfold slotHashes
  apply List.ext_getElem?
  intro i
  rw [List.getElem?_map, List.getElem?_map]
  by_cases hi : i < s.index.length
  · obtain ⟨a2, b2⟩ := hchar i hi
    obtain ⟨a3, b3⟩ := hchar3 i hi
    obtain ⟨slot2, h2⟩ := get_of_lt (s := s2) (i := i) (by omega)
    obtain ⟨slot3, h3⟩ := get_of_lt (s := s3) (i := i) (by omega)
    rw [h2, h3]
    cases slot2 with
    | none =>
      cases slot3 with
      | none => rfl
      | some e3 =>
        obtain ⟨x, hx, hxi⟩ := a3.mp ⟨e3, h3⟩
        obtain ⟨e, he⟩ := a2.mpr ⟨x, hperm.mem_iff.mp hx, hxi⟩
        rw [h2] at he
        cases he
    | some e2 =>
      cases slot3 with
      | none =>
        obtain ⟨x, hx, hxi⟩ := a2.mp ⟨e2, h2⟩
        obtain ⟨e, he⟩ := a3.mpr ⟨x, hperm.mem_iff.mpr hx, hxi⟩
        rw [h3] at he
        cases he
      | some e3 =>
        obtain ⟨m2, i2, min2⟩ := b2 e2 h2
        obtain ⟨m3, i3, min3⟩ := b3 e3 h3
        have le1 := min2 e3 (hperm.mem_iff.mp m3) i3
        have le2 := min3 e2 (hperm.mem_iff.mpr m2) i2
        simp only [Option.map_some', Option.some.injEq]
        omega
  · rw [List.getElem?_eq_none (by omega), List.getElem?_eq_none (by omega)]

/-- Witness for C1: the scenario of the specification, capacity 4, `keyShifts`
2, hashes 5, 9, 1, 6 in that order, ending with slots 1, 5, 9, empty. -/
theorem minimum_watermark_witness :
    addItems 4 1 store4 [entry 5, entry 9, entry 1, entry 6]
        = .ok ([1, 2, 3, 0], store4Filled)
      ∧ allEmpty store4
      ∧ ∃ rets s2, addItems 4 (0 + 1) store4 [entry 5, entry 9, entry 1, entry 6]
            = .ok (rets, s2)
        ∧ (∀ i, i < store4.index.length →
            ((∃ e, s2.index[i]? = some (some e)) ↔
              ∃ x ∈ [entry 5, entry 9, entry 1, entry 6], slotOf store4 x.keyHash = i)
            ∧ ∀ e, s2.index[i]? = some (some e) →
                e ∈ [entry 5, entry 9, entry 1, entry 6] ∧ slotOf store4 e.keyHash = i
                  ∧ ∀ x ∈ [entry 5, entry 9, entry 1, entry 6],
                      slotOf store4 x.keyHash = i → e.keyHash ≤ x.keyHash)
        ∧ ∀ others : List (ListElement Nat Nat),
            others.Perm [entry 5, entry 9, entry 1, entry 6] →
            ∃ rets3 s3, addItems 4 (0 + 1) store4 others = .ok (rets3, s3)
              ∧ slotHashes s3 = slotHashes s2 :=
  ⟨rfl, by simp [allEmpty, store4],
    minimum_watermark 4 0 store4 [entry 5, entry 9, entry 1, entry 6]
      (by simp [allEmpty, store4]) (by simp [slotOf, store4, entry])⟩

/-- C2 (single-call contract of `addItem`, no interference).  With
`i = item.keyHash >> keyShifts`: if slot `i` is empty the call installs `item`
there, increments the counter (an increment of the `w`-bit word, which is
`count + 1` unless that overflows) and returns the new counter; if slot `i`
holds an entry with a larger hash the call replaces it by `item`, leaves the
counter and returns 0; if slot `i` holds an entry whose hash is not larger the
call changes nothing and returns 0.  Each case returns for every positive
retry budget. -/
theorem addItem_contract [DecidableEq Key] [DecidableEq Value] (w fuel : Nat)
    (s : store Key Value) (item : ListElement Key Value) :
    (s.index[slotOf s item.keyHash]? = some none →
        addItem w (fuel + 1) s item
          = .ok ((s.count + 1) % 2 ^ w,
              { s with index := s.index.set (slotOf s item.keyHash) (some item),
                       count := (s.count + 1) % 2 ^ w })
        ∧ (s.count + 1 < 2 ^ w → (s.count + 1) % 2 ^ w = s.count + 1))
      ∧ (∀ e, s.index[slotOf s item.keyHash]? = some (some e) →
          item.keyHash < e.keyHash →
          addItem w (fuel + 1) s item
            = .ok (0, { s with index := s.index.set (slotOf s item.keyHash) (some item) }))
      ∧ (∀ e, s.index[slotOf s item.keyHash]? = some (some e) →
          e.keyHash ≤ item.keyHash →
          addItem w (fuel + 1) s item = .ok (0, s)) := by
  refine ⟨?_, ?_, ?_⟩
  · intro h
    exact ⟨addItemLoop_install w fuel s item _ h, Nat.mod_eq_of_lt⟩
  · intro e h hlt
    exact addItemLoop_replace w fuel s item e _ h hlt
  · intro e h hge
    exact addItemLoop_keep w fuel s item e _ h hge

/-- Witness for C2: installing hash 5 into empty slot 1, replacing it by hash
4, and offering hash 6 to a slot that holds hash 5. -/
theorem addItem_contract_witness :
    (addItem 4 1 store4 (entry 5) = .ok (1, store4One 5))
      ∧ (addItem 4 1 (store4One 5) (entry 4) = .ok (0, store4One 4))
      ∧ (addItem 4 1 (store4One 5) (entry 6) = .ok (0, store4One 5)) :=
  ⟨((addItem_contract 4 0 store4 (entry 5)).1 rfl).1,
    (addItem_contract 4 0 (store4One 5) (entry 4)).2.1 (entry 5) rfl (by decide),
    (addItem_contract 4 0 (store4One 5) (entry 6)).2.2 (entry 5) rfl (by decide)⟩

/-- C3 (direct lookup exactness).  For every store and hash `h` whose slot
`h >> keyShifts` exists, `item h` returns exactly the content of that slot
(empty or the entry reference), reads that one slot and no other, and leaves
the store as it was. -/
theorem item_exact (s : store Key Value) (h : Nat) (slot : Option (ListElement Key Value))
    (hs : s.index[h >>> s.keyShifts]? = some slot) :
    ∃ r, item s h = .ok r ∧ r.ret = slot ∧ r.loads = [h >>> s.keyShifts] ∧ r.after = s :=
  ⟨_, item_of_get s h slot hs, rfl, rfl, rfl⟩

/-- Witness for C3: looking up hash 6 in the filled scenario store reads slot
1 and returns the entry with hash 5. -/
theorem item_exact_witness :
    ∃ r, item store4Filled 6 = .ok r ∧ r.ret = some (entry 5)
      ∧ r.loads = [6 >>> store4Filled.keyShifts] ∧ r.after = store4Filled :=
  item_exact store4Filled 6 (some (entry 5)) rfl

/-- C4 (fallback correctness).  For every store and hash `h` whose slot
`h >> keyShifts` exists, `itemOrPreNotNull h` returns; it returns empty only if
slot 0 is empty; otherwise it returns an entry whose hash is at most `h`, or,
when no slot from 1 up to the computed index holds a hash that is at most `h`,
the content of slot 0 even though its hash exceeds `h`. -/
theorem itemOrPreNotNull_fallback (s : store Key Value) (h : Nat)
    (hin : slotOf s h < s.index.length) :
    ∃ r, itemOrPreNotNull s h = .ok r
      ∧ (r.ret = none → s.index[0]? = some none)
      ∧ ∀ e, r.ret = some e →
          e.keyHash ≤ h
            ∨ (s.index[0]? = some (some e)
                ∧ ∀ j e1, 0 < j → j ≤ slotOf s h → s.index[j]? = some (some e1) →
                    h < e1.keyHash) := by
  obtain ⟨r, hrun, hget, -⟩ := itemOrPreNotNull_ref s h hin
  have hstop := (stopsAt_iff s h (refIndex s h)).mp (refIndex_stops s h)
  refine ⟨r, hrun, ?_, ?_⟩
  · intro hnone
    rcases hstop with h0 | ⟨e, he, -⟩
    · rw [h0, hnone] at hget
      exact hget
    · rw [hget, hnone] at he
      cases he
  · intro e hret
    rcases hstop with h0 | ⟨e1, he1, hle⟩
    · right
      refine ⟨by rw [h0, hret] at hget; exact hget, ?_⟩
      intro j e1 hj hjle hslot
      have hfalse := refIndex_greatest s h j (by omega) hjle
      by_contra hc
      have : stopsAt s h j = true :=
        (stopsAt_iff s h j).mpr (Or.inr ⟨e1, hslot, Nat.le_of_not_lt hc⟩)
      rw [hfalse] at this
      cases this
    · left
      rw [hget, hret] at he1
      have : e = e1 := by injection he1 with he1; injection he1
      rw [this]
      exact hle

/-- Witness for C4: on the filled scenario store `itemOrPreNotNull 14` finds
slot 3 empty and returns the entry with hash 9 of slot 2. -/
theorem itemOrPreNotNull_fallback_witness :
    itemOrPreNotNull store4Filled 14 = .ok ⟨some (entry 9), [3, 2], store4Filled⟩
      ∧ ∃ r, itemOrPreNotNull store4Filled 14 = .ok r
        ∧ (r.ret = none → store4Filled.index[0]? = some none)
        ∧ ∀ e, r.ret = some e →
            e.keyHash ≤ 14
              ∨ (store4Filled.index[0]? = some (some e)
                  ∧ ∀ j e1, 0 < j → j ≤ slotOf store4Filled 14 →
                      store4Filled.index[j]? = some (some e1) → 14 < e1.keyHash) :=
  ⟨rfl, itemOrPreNotNull_fallback store4Filled 14 (by decide)⟩

/-- C5 (backward-scan reference definition).  For every store and hash `h`
whose slot `idx = h >> keyShifts` exists, `itemOrPreNotNull h` returns the
content of slot `j`, where `j` is the greatest index `j ≤ idx` such that
`j = 0` or slot `j` is occupied by an entry whose hash is at most `h`. -/
theorem itemOrPreNotNull_backward_scan (s : store Key Value) (h : Nat)
    (hin : slotOf s h < s.index.length) :
    ∃ r, itemOrPreNotNull s h = .ok r
      ∧ s.index[refIndex s h]? = some r.ret
      ∧ refIndex s h ≤ slotOf s h
      ∧ (refIndex s h = 0
          ∨ ∃ e, s.index[refIndex s h]? = some (some e) ∧ e.keyHash ≤ h)
      ∧ ∀ k, refIndex s h < k → k ≤ slotOf s h →
          ¬ (k = 0 ∨ ∃ e, s.index[k]? = some (some e) ∧ e.keyHash ≤ h) := by
  obtain ⟨r, hrun, hget, -⟩ := itemOrPreNotNull_ref s h hin
  refine ⟨r, hrun, hget, refIndex_le s h,
    (stopsAt_iff s h (refIndex s h)).mp (refIndex_stops s h), ?_⟩
  intro k hk hle hc
  have hfalse := refIndex_greatest s h k hk hle
  rw [(stopsAt_iff s h k).mpr hc] at hfalse
  cases hfalse

/-- Witness for C5: on the filled scenario store the scan for hash 14 starts
at slot 3 and stops at slot 2. -/
theorem itemOrPreNotNull_backward_scan_witness :
    refIndex store4Filled 14 = 2
      ∧ ∃ r, itemOrPreNotNull store4Filled 14 = .ok r
        ∧ store4Filled.index[refIndex store4Filled 14]? = some r.ret
        ∧ refIndex store4Filled 14 ≤ slotOf store4Filled 14
        ∧ (refIndex store4Filled 14 = 0
            ∨ ∃ e, store4Filled.index[refIndex store4Filled 14]? = some (some e)
                ∧ e.keyHash ≤ 14)
        ∧ ∀ k, refIndex store4Filled 14 < k → k ≤ slotOf store4Filled 14 →
            ¬ (k = 0 ∨ ∃ e, store4Filled.index[k]? = some (some e) ∧ e.keyHash ≤ 14) :=
  ⟨by decide, itemOrPreNotNull_backward_scan store4Filled 14 (by decide)⟩

/-- C6, as stated, fails: in the scenario of the specification (capacity 4,
hashes 5, 9, 1, 6) the calls return 1, 2, 3, 0, whose non-zero values sum to
6, while 3 slots end occupied. -/
theorem occupancy_sum_counterexample :
    addItems 4 1 store4 [entry 5, entry 9, entry 1, entry 6]
        = .ok ([1, 2, 3, 0], store4Filled)
      ∧ ([1, 2, 3, 0].filter (fun r => decide (r ≠ 0))).sum = 6
      ∧ occupied store4Filled = 3
      ∧ ¬ (∀ (s s2 : store Nat Nat) (items : List (ListElement Nat Nat)) (rets : List Nat),
            allEmpty s → s.count = 0 → addItems 4 1 s items = .ok (rets, s2) →
            (rets.filter (fun r => decide (r ≠ 0))).sum = occupied s2) := by
  refine ⟨rfl, by decide, by decide, ?_⟩
  intro hall
  have h := hall store4 store4Filled [entry 5, entry 9, entry 1, entry 6] [1, 2, 3, 0]
    (by simp [allEmpty, store4]) rfl rfl
  revert h
  decide

/-- C6, amended (occupancy accounting).  For any sequence of `addItem` calls
on an initially empty store with counter 0, whose array has fewer than `2 ^ w`
slots and whose hashes address existing slots, the run returns, the number of
non-zero return values equals the final number of occupied slots, the non-zero
return values are 1, 2, ..., up to that number in call order, and the counter
ends equal to the number of occupied slots. -/
theorem occupancy_accounting [DecidableEq Key] [DecidableEq Value] (w fuel : Nat)
    (s : store Key Value) (items : List (ListElement Key Value))
    (hempty : allEmpty s) (hcount : s.count = 0) (hlen : s.index.length < 2 ^ w)
    (hin : ∀ x ∈ items, slotOf s x.keyHash < s.index.length) :
    ∃ rets s2, addItems w (fuel + 1) s items = .ok (rets, s2)
      ∧ (rets.filter (fun r => decide (r ≠ 0))).length = occupied s2
      ∧ rets.filter (fun r => decide (r ≠ 0)) = List.range' 1 (occupied s2)
      ∧ s2.count = occupied s2 := by
  obtain ⟨rets, s2, hrun⟩ := addItems_ok w fuel items s hin
  have hinv : s.count = occupied s := by rw [hcount, occupied_allEmpty s hempty]
  obtain ⟨h1, -, h3⟩ := addItems_counts w fuel items s s2 rets hrun hinv hlen
  rw [hcount, h1] at h3
  simp only [Nat.zero_add, Nat.sub_zero] at h3
  exact ⟨rets, s2, hrun, by rw [h3, List.length_range'], h3, h1⟩

/-- Witness for C6 amended: the scenario of the specification. -/
theorem occupancy_accounting_witness :
    ∃ rets s2, addItems 4 (0 + 1) store4 [entry 5, entry 9, entry 1, entry 6] = .ok (rets, s2)
      ∧ (rets.filter (fun r => decide (r ≠ 0))).length = occupied s2
      ∧ rets.filter (fun r => decide (r ≠ 0)) = List.range' 1 (occupied s2)
      ∧ s2.count = occupied s2 :=
  occupancy_accounting 4 0 store4 [entry 5, entry 9, entry 1, entry 6]
    (by simp [allEmpty, store4]) rfl (by decide) (by simp [slotOf, store4, entry])

/-- C7 (non-zero return exactly once per slot).  For every store whose counter
increment does not overflow the word and every entry whose slot exists,
`addItem` returns, and returns non-zero if and only if the target slot was
empty before the call.  Hence in any sequence of calls from the empty store
(counter 0, fewer than `2 ^ w` slots), the call at position `k` returns
non-zero exactly when no earlier call addressed its slot, and the number of
non-zero returns equals the final number of occupied slots. -/
theorem nonzero_once_per_slot [DecidableEq Key] [DecidableEq Value] (w fuel : Nat) :
    (∀ (s : store Key Value) (item : ListElement Key Value),
        s.count + 1 < 2 ^ w → slotOf s item.keyHash < s.index.length →
        ∃ r s1, addItem w (fuel + 1) s item = .ok (r, s1)
          ∧ (r ≠ 0 ↔ s.index[slotOf s item.keyHash]? = some none))
      ∧ ∀ (s : store Key Value) (items : List (ListElement Key Value)),
          allEmpty s → s.count = 0 → s.index.length < 2 ^ w →
          (∀ x ∈ items, slotOf s x.keyHash < s.index.length) →
          ∃ rets s2, addItems w (fuel + 1) s items = .ok (rets, s2)
            ∧ (∀ (k : Nat) (x : ListElement Key Value) (r : Nat),
                items[k]? = some x → rets[k]? = some r →
                (r ≠ 0 ↔ ∀ y ∈ items.take k, slotOf s y.keyHash ≠ slotOf s x.keyHash))
            ∧ rets.countP (fun r => decide (r ≠ 0)) = occupied s2 := by
  constructor
  · intro s item hov hin
    obtain ⟨cur, hcur⟩ := get_of_lt hin
    refine ⟨_, _, addItem_step w fuel s item cur hcur, ?_⟩
    cases cur with
    | none =>
      rw [hcur]
      simp [Nat.mod_eq_of_lt hov]
    | some e =>
      rw [hcur]
      simp
  · intro s items hempty hcount hlen hin
    obtain ⟨rets, s2, hrun⟩ := addItems_ok w fuel items s hin
    have hinv : s.count = occupied s := by rw [hcount, occupied_allEmpty s hempty]
    obtain ⟨h1, -, h3⟩ := addItems_counts w fuel items s s2 rets hrun hinv hlen
    refine ⟨rets, s2, hrun, ?_, ?_⟩
    · intro k x r hx hr
      rw [addItems_nonzero w fuel items s s2 rets hrun hinv hlen k x r hx hr]
      have hk : k < items.length := by
        by_contra hc
        rw [List.getElem?_eq_none (Nat.le_of_not_lt hc)] at hx
        cases hx
      have hxin := hin x (List.getElem?_mem hx)
      obtain ⟨slot, hslot⟩ := get_of_lt hxin
      have hnone : s.index[slotOf s x.keyHash]? = some none := by
        rw [hslot, allEmpty_get hempty hslot]
      simp [hnone]
    · rw [List.countP_eq_length_filter, h3, List.length_range', h1, hcount]
      simp

/-- Witness for C7: offering hash 4 to a store whose slot 1 is taken returns
0, and the scenario run returns non-zero as often as slots end occupied. -/
theorem nonzero_once_per_slot_witness :
    (∃ r s1, addItem 4 (0 + 1) (store4One 5) (entry 4) = .ok (r, s1)
        ∧ (r ≠ 0 ↔ (store4One 5).index[slotOf (store4One 5) (entry 4).keyHash]? = some none))
      ∧ ∃ rets s2, addItems 4 (0 + 1) store4 [entry 5, entry 9, entry 1, entry 6]
            = .ok (rets, s2)
          ∧ rets.countP (fun r => decide (r ≠ 0)) = occupied s2 :=
  ⟨(nonzero_once_per_slot 4 0).1 (store4One 5) (entry 4) (by decide) (by decide),
    let ⟨rets, s2, h1, _, h3⟩ :=
      (nonzero_once_per_slot 4 0).2 store4 [entry 5, entry 9, entry 1, entry 6]
        (by simp [allEmpty, store4]) rfl (by decide) (by simp [slotOf, store4, entry])
    ⟨rets, s2, h1, h3⟩⟩

/-- C8 (count invariant).  The predicate `count = number of occupied slots`
holds for the empty store with counter 0; it is preserved by every `addItem`
call on an existing slot of an array with fewer than `2 ^ w` slots (the array
lies in the `w`-bit address space), and the call returns; `item` and
`itemOrPreNotNull` leave the counter unchanged. -/
theorem count_invariant [DecidableEq Key] [DecidableEq Value] (w fuel : Nat) :
    (∀ s : store Key Value, allEmpty s → s.count = 0 → s.count = occupied s)
      ∧ (∀ (s : store Key Value) (item : ListElement Key Value),
          s.count = occupied s → s.index.length < 2 ^ w →
          slotOf s item.keyHash < s.index.length →
          ∃ r s1, addItem w (fuel + 1) s item = .ok (r, s1) ∧ s1.count = occupied s1)
      ∧ ∀ (s : store Key Value) (h : Nat), slotOf s h < s.index.length →
          (∃ r, item s h = .ok r ∧ r.after.count = s.count)
            ∧ ∃ r, itemOrPreNotNull s h = .ok r ∧ r.after.count = s.count := by
  refine ⟨?_, ?_, ?_⟩
  · intro s hempty hcount
    rw [hcount, occupied_allEmpty s hempty]
  · intro s item hinv hlen hin
    obtain ⟨cur, hcur⟩ := get_of_lt hin
    have hrun := addItem_step w fuel s item cur hcur
    exact ⟨_, _, hrun, (addItem_countInv hrun hinv hlen).1⟩
  · intro s h hin
    obtain ⟨slot, hslot⟩ := get_of_lt hin
    obtain ⟨r, hr, -, hafter⟩ := itemOrPreNotNull_ref s h hin
    exact ⟨⟨_, item_of_get s h slot hslot, rfl⟩, ⟨r, hr, by rw [hafter]⟩⟩

/-- Witness for C8: the empty scenario store, one call on it, and a lookup in
the filled scenario store. -/
theorem count_invariant_witness :
    store4.count = occupied store4
      ∧ (∃ r s1, addItem 4 (0 + 1) store4 (entry 5) = .ok (r, s1) ∧ s1.count = occupied s1)
      ∧ (∃ r, item store4Filled 14 = .ok r ∧ r.after.count = store4Filled.count)
      ∧ ∃ r, itemOrPreNotNull store4Filled 14 = .ok r ∧ r.after.count = store4Filled.count :=
  ⟨(@count_invariant Nat Nat _ _ 4 0).1 store4 (by simp [allEmpty, store4]) rfl,
    (count_invariant 4 0).2.1 store4 (entry 5) (by decide) (by decide) (by decide),
    (@count_invariant Nat Nat _ _ 4 0).2.2 store4Filled 14 (by decide)⟩

/-- C9 (bucket locality invariant).  The predicate `for every occupied slot
i, slot[i].keyHash >> keyShifts = i` holds for the empty store and is
preserved by every `addItem` call on an existing slot, which returns; so it
holds after every sequence of such calls from a store that satisfies it, in
particular in every state reached from the empty store. -/
theorem bucket_locality [DecidableEq Key] [DecidableEq Value] (w fuel : Nat) :
    (∀ s : store Key Value, allEmpty s → bucketLocal s)
      ∧ (∀ (s : store Key Value) (item : ListElement Key Value),
          bucketLocal s → slotOf s item.keyHash < s.index.length →
          ∃ r s1, addItem w (fuel + 1) s item = .ok (r, s1) ∧ bucketLocal s1)
      ∧ ∀ (s : store Key Value) (items : List (ListElement Key Value)),
          bucketLocal s → (∀ x ∈ items, slotOf s x.keyHash < s.index.length) →
          ∃ rets s2, addItems w (fuel + 1) s items = .ok (rets, s2) ∧ bucketLocal s2 := by
  refine ⟨?_, ?_, ?_⟩
  · intro s hempty i e he
    have := allEmpty_get hempty he
    cases this
  · intro s item hloc hin
    obtain ⟨cur, hcur⟩ := get_of_lt hin
    have hrun := addItem_step w fuel s item cur hcur
    exact ⟨_, _, hrun, addItem_bucketLocal hrun hloc⟩
  · intro s items hloc hin
    obtain ⟨rets, s2, hrun⟩ := addItems_ok w fuel items s hin
    exact ⟨rets, s2, hrun, addItems_bucketLocal w fuel items s s2 rets hrun hloc⟩

/-- Witness for C9: the empty scenario store is bucket-local and stays so
after the scenario run. -/
theorem bucket_locality_witness :
    bucketLocal store4
      ∧ ∃ rets s2, addItems 4 (0 + 1) store4 [entry 5, entry 9, entry 1, entry 6]
            = .ok (rets, s2) ∧ bucketLocal s2 :=
  have h0 : bucketLocal store4 :=
    (@bucket_locality Nat Nat _ _ 4 0).1 store4 (by simp [allEmpty, store4])
  ⟨h0, (bucket_locality 4 0).2.2 store4 [entry 5, entry 9, entry 1, entry 6] h0
    (by simp [slotOf, store4, entry])⟩

/-- C10 (monotonic, never-cleared slots).  For every store and entry whose
slot exists, `addItem` returns, and every slot `i` that was occupied before is
occupied afterwards by an entry whose hash is not larger: the occupant is
either the same entry or `item` with a strictly smaller hash.  The lookups
`item` and `itemOrPreNotNull` return the store as it was, so no operation
makes an occupied slot empty. -/
theorem slots_monotonic [DecidableEq Key] [DecidableEq Value] (w fuel : Nat)
    (s : store Key Value) :
    (∀ item : ListElement Key Value, slotOf s item.keyHash < s.index.length →
        ∃ r s1, addItem w (fuel + 1) s item = .ok (r, s1)
          ∧ ∀ (i : Nat) (e : ListElement Key Value), s.index[i]? = some (some e) →
              ∃ e1, s1.index[i]? = some (some e1) ∧ e1.keyHash ≤ e.keyHash
                ∧ (e1 = e ∨ (e1 = item ∧ item.keyHash < e.keyHash)))
      ∧ ∀ h : Nat, slotOf s h < s.index.length →
          (∃ r, item s h = .ok r ∧ r.after = s)
            ∧ ∃ r, itemOrPreNotNull s h = .ok r ∧ r.after = s := by
  constructor
  · intro item hin
    obtain ⟨cur, hcur⟩ := get_of_lt hin
    have hrun := addItem_step w fuel s item cur hcur
    refine ⟨_, _, hrun, ?_⟩
    obtain ⟨cur2, hcur2, -, -, hset, hother, -, -⟩ := addItem_facts hrun
    intro i e he
    by_cases hi : i = slotOf s item.keyHash
    · subst hi
      rw [hcur2] at he
      have hc : cur2 = some e := by injection he
      subst hc
      refine ⟨offer (some e) item, hset, offer_le_cur e item, ?_⟩
      rcases offer_cases (some e) item with ⟨hc, hlt⟩ | hc
      · exact Or.inr ⟨hc, hlt e rfl⟩
      · left
        injection hc with hc
        exact hc.symm
    · exact ⟨e, by rw [hother i hi]; exact he, Nat.le_refl _, Or.inl rfl⟩
  · intro h hin
    obtain ⟨slot, hslot⟩ := get_of_lt hin
    obtain ⟨r, hr, -, hafter⟩ := itemOrPreNotNull_ref s h hin
    exact ⟨⟨_, item_of_get s h slot hslot, rfl⟩, ⟨r, hr, hafter⟩⟩

/-- Witness for C10: offering hash 4 and then looking up hash 14 on scenario
stores whose slots exist. -/
theorem slots_monotonic_witness :
    (∃ r s1, addItem 4 (0 + 1) (store4One 5) (entry 4) = .ok (r, s1)
        ∧ ∀ (i : Nat) (e : ListElement Nat Nat), (store4One 5).index[i]? = some (some e) →
            ∃ e1, s1.index[i]? = some (some e1) ∧ e1.keyHash ≤ e.keyHash
              ∧ (e1 = e ∨ (e1 = entry 4 ∧ (entry 4).keyHash < e.keyHash)))
      ∧ (∃ r, item (store4One 5) 14 = .ok r ∧ r.after = store4One 5)
      ∧ ∃ r, itemOrPreNotNull (store4One 5) 14 = .ok r ∧ r.after = store4One 5 :=
  ⟨(slots_monotonic 4 0 (store4One 5)).1 (entry 4) (by decide),
    (slots_monotonic 4 0 (store4One 5)).2 14 (by decide)⟩

/-- C11 (index-0 edge case).  For every store and hash `h` with
`h >> keyShifts = 0` (slot 0 existing), `itemOrPreNotNull h` returns the
content of slot 0 as it is, empty or not and whatever its hash, after reading
slot 0 only; the whole result equals that of `item h`. -/
theorem itemOrPreNotNull_index_zero (s : store Key Value) (h : Nat)
    (h0 : slotOf s h = 0) (hin : 0 < s.index.length) :
    ∃ slot, s.index[0]? = some slot
      ∧ itemOrPreNotNull s h = .ok ⟨slot, [0], s⟩
      ∧ itemOrPreNotNull s h = item s h := by
  obtain ⟨slot, hslot⟩ := get_of_lt hin
  unfold slotOf at h0
  refine ⟨slot, hslot, ?_, ?_⟩
  · simp [itemOrPreNotNull, h0, loadPointer_of_get hslot, itemOrPreNotNullLoop]
  · simp [itemOrPreNotNull, item, h0, loadPointer_of_get hslot, itemOrPreNotNullLoop]

/-- Witness for C11: on the filled scenario store `itemOrPreNotNull 0` returns
the entry with hash 1 of slot 0, although 1 exceeds 0. -/
theorem itemOrPreNotNull_index_zero_witness :
    itemOrPreNotNull store4Filled 0 = .ok ⟨some (entry 1), [0], store4Filled⟩
      ∧ 0 < (entry 1).keyHash
      ∧ ∃ slot, store4Filled.index[0]? = some slot
        ∧ itemOrPreNotNull store4Filled 0 = .ok ⟨slot, [0], store4Filled⟩
        ∧ itemOrPreNotNull store4Filled 0 = item store4Filled 0 :=
  ⟨rfl, by decide, itemOrPreNotNull_index_zero store4Filled 0 (by decide) (by decide)⟩

/-- C12 (empty store).  On a store in which every slot is empty, `item x`
and `itemOrPreNotNull x` return empty, for every hash `x` whose slot exists. -/
theorem empty_store_lookups (s : store Key Value) (x : Nat) (hempty : allEmpty s)
    (hin : slotOf s x < s.index.length) :
    (∃ r, item s x = .ok r ∧ r.ret = none)
      ∧ ∃ r, itemOrPreNotNull s x = .ok r ∧ r.ret = none := by
  constructor
  · exact ⟨_, item_of_get s x none (allEmpty_slot hempty hin), rfl⟩
  · obtain ⟨r, hr, hget, -⟩ := itemOrPreNotNull_ref s x hin
    exact ⟨r, hr, allEmpty_get hempty hget⟩

/-- Witness for C12: both lookups of hash 14 in the empty scenario store. -/
theorem empty_store_lookups_witness :
    item store4 14 = .ok ⟨none, [3], store4⟩
      ∧ itemOrPreNotNull store4 14 = .ok ⟨none, [3, 2, 1, 0], store4⟩
      ∧ (∃ r, item store4 14 = .ok r ∧ r.ret = none)
      ∧ ∃ r, itemOrPreNotNull store4 14 = .ok r ∧ r.ret = none :=
  ⟨rfl, rfl, empty_store_lookups store4 14 (by simp [allEmpty, store4]) (by decide)⟩

/-- C13 (index validity, totality).  For a store of capacity `2 ^ k` with
`k ≤ w` and `keyShifts = w - k`, every hash `h` of `w` bits has
`h >> keyShifts < capacity` (with `k = 0` the index is 0); `item` and
`itemOrPreNotNull` return and read only positions below the capacity, and
`addItem` of an entry with that hash returns, for every positive retry budget,
leaving capacity and `keyShifts` as they were. -/
theorem index_valid [DecidableEq Key] [DecidableEq Value] (w k fuel : Nat)
    (s : store Key Value) (h : Nat) (hk : k ≤ w) (hlen : s.index.length = 2 ^ k)
    (hks : s.keyShifts = w - k) (hh : h < 2 ^ w) :
    h >>> s.keyShifts < s.index.length
      ∧ (k = 0 → h >>> s.keyShifts = 0)
      ∧ (∃ r, item s h = .ok r ∧ ∀ j ∈ r.loads, j < s.index.length)
      ∧ (∃ r, itemOrPreNotNull s h = .ok r ∧ ∀ j ∈ r.loads, j < s.index.length)
      ∧ ∀ item : ListElement Key Value, item.keyHash = h →
          ∃ r s1, addItem w (fuel + 1) s item = .ok (r, s1)
            ∧ s1.index.length = 2 ^ k ∧ s1.keyShifts = w - k := by
  have hin : slotOf s h < s.index.length := by
    unfold slotOf
    rw [hks, hlen]
    exact shift_lt_capacity w k h hk hh
  refine ⟨hin, ?_, ?_, ?_, ?_⟩
  · intro hk0
    have hlt : slotOf s h < 1 := by rw [hlen, hk0] at hin; exact hin
    exact Nat.lt_one_iff.mp hlt
  · obtain ⟨slot, hslot⟩ := get_of_lt hin
    refine ⟨_, item_of_get s h slot hslot, ?_⟩
    intro j hj
    simp only [List.mem_singleton] at hj
    rw [hj]
    exact hin
  · obtain ⟨r, hr, hloads⟩ := itemOrPreNotNull_loads s h hin
    refine ⟨r, hr, ?_⟩
    intro j hj
    rw [hloads] at hj
    simp only [List.mem_cons, List.mem_reverse, List.mem_range'_1] at hj
    have := refIndex_le s h
    omega
  · intro item hitem
    have hin2 : slotOf s item.keyHash < s.index.length := by rw [hitem]; exact hin
    obtain ⟨cur, hcur⟩ := get_of_lt hin2
    obtain ⟨r, s1, hrun, h1, h2, -⟩ := addItem_get w fuel s item cur hcur
    exact ⟨r, s1, hrun, by rw [h2, hlen], by rw [h1, hks]⟩

/-- Witness for C13: words of 4 bits, capacity `2 ^ 2`, `keyShifts` 2 and the
largest hash 15. -/
theorem index_valid_witness :
    15 >>> store4.keyShifts < store4.index.length
      ∧ ∃ r s1, addItem 4 (0 + 1) store4 (entry 15) = .ok (r, s1)
          ∧ s1.index.length = 2 ^ 2 ∧ s1.keyShifts = 4 - 2 :=
  have h := index_valid 4 2 0 store4 15 (by decide) (by decide) (by decide) (by decide)
  ⟨h.1, h.2.2.2.2 (entry 15) rfl⟩

/-- C16 (bounded backward scan).  For every store and hash `h` whose slot
`idx = h >> keyShifts` exists, `itemOrPreNotNull h` returns; it reads the
positions `idx, idx - 1, ...` down to the position it stops at, one read
before the loop and one per execution of the loop body, so the loop body runs
at most `idx` times and at most `idx + 1` slots are read, all at positions in
`0 .. idx`. -/
theorem itemOrPreNotNull_bounded (s : store Key Value) (h : Nat)
    (hin : slotOf s h < s.index.length) :
    ∃ r, itemOrPreNotNull s h = .ok r
      ∧ r.loads = slotOf s h ::
          (List.range' (refIndex s h) (slotOf s h - refIndex s h)).reverse
      ∧ r.loads.length - 1 ≤ slotOf s h
      ∧ r.loads.length ≤ slotOf s h + 1
      ∧ ∀ j ∈ r.loads, j ≤ slotOf s h := by
  obtain ⟨r, hr, hloads⟩ := itemOrPreNotNull_loads s h hin
  have hlen : r.loads.length = slotOf s h - refIndex s h + 1 := by
    rw [hloads]
    simp
  refine ⟨r, hr, hloads, by omega, by omega, ?_⟩
  intro j hj
  rw [hloads] at hj
  simp only [List.mem_cons, List.mem_reverse, List.mem_range'_1] at hj
  have := refIndex_le s h
  omega

/-- Witness for C16: in the empty scenario store the scan for hash 14 reads
the four positions 3, 2, 1, 0. -/
theorem itemOrPreNotNull_bounded_witness :
    itemOrPreNotNull store4 14 = .ok ⟨none, [3, 2, 1, 0], store4⟩
      ∧ ∃ r, itemOrPreNotNull store4 14 = .ok r
        ∧ r.loads = slotOf store4 14 ::
            (List.range' (refIndex store4 14) (slotOf store4 14 - refIndex store4 14)).reverse
        ∧ r.loads.length - 1 ≤ slotOf store4 14
        ∧ r.loads.length ≤ slotOf store4 14 + 1
        ∧ ∀ j ∈ r.loads, j ≤ slotOf store4 14 :=
  ⟨rfl, itemOrPreNotNull_bounded store4 14 (by decide)⟩

/-- C19 (frame of `addItem`).  For every store and entry whose slot exists,
`addItem` returns and leaves `keyShifts`, the capacity and every slot other
than slot `item.keyHash >> keyShifts` unchanged; the counter changes only when
the call installs `item` into a slot that was empty. -/
theorem addItem_frame [DecidableEq Key] [DecidableEq Value] (w fuel : Nat)
    (s : store Key Value) (item : ListElement Key Value)
    (hin : slotOf s item.keyHash < s.index.length) :
    ∃ r s1, addItem w (fuel + 1) s item = .ok (r, s1)
      ∧ s1.keyShifts = s.keyShifts
      ∧ s1.index.length = s.index.length
      ∧ (∀ j, j ≠ slotOf s item.keyHash → s1.index[j]? = s.index[j]?)
      ∧ (s1.count ≠ s.count →
          s.index[slotOf s item.keyHash]? = some none
            ∧ s1.index[slotOf s item.keyHash]? = some (some item)) := by
  obtain ⟨cur, hcur⟩ := get_of_lt hin
  obtain ⟨r, s1, hrun, h1, h2, h3, h4, -, h6⟩ := addItem_get w fuel s item cur hcur
  refine ⟨r, s1, hrun, h1, h2, h4, ?_⟩
  intro hne
  cases cur with
  | none => exact ⟨hcur, h3⟩
  | some e =>
    simp only [Option.isNone_some] at h6
    exact absurd h6 hne

/-- Witness for C19: offering hash 4 to the scenario store whose slot 1 holds
hash 5. -/
theorem addItem_frame_witness :
    ∃ r s1, addItem 4 (0 + 1) (store4One 5) (entry 4) = .ok (r, s1)
      ∧ s1.keyShifts = (store4One 5).keyShifts
      ∧ s1.index.length = (store4One 5).index.length
      ∧ (∀ j, j ≠ slotOf (store4One 5) (entry 4).keyHash →
          s1.index[j]? = (store4One 5).index[j]?)
      ∧ (s1.count ≠ (store4One 5).count →
          (store4One 5).index[slotOf (store4One 5) (entry 4).keyHash]? = some none
            ∧ s1.index[slotOf (store4One 5) (entry 4).keyHash]? = some (some (entry 4))) :=
  addItem_frame 4 0 (store4One 5) (entry 4) (by decide)

/-- C15 (order independence).  For every store and every two entries `a` and
`b` with different hashes that address the same existing slot, `addItem a`
followed by `addItem b` and `addItem b` followed by `addItem a` return and end
in the same store (same slots, same counter); when the slot was empty before,
it ends holding the entry with the smaller hash. -/
theorem addItem_order_independent [DecidableEq Key] [DecidableEq Value] (w fuel : Nat)
    (s : store Key Value) (a b : ListElement Key Value)
    (hslot : slotOf s a.keyHash = slotOf s b.keyHash) (hne : a.keyHash ≠ b.keyHash)
    (hin : slotOf s a.keyHash < s.index.length) :
    ∃ rab rba s2, addItems w (fuel + 1) s [a, b] = .ok (rab, s2)
      ∧ addItems w (fuel + 1) s [b, a] = .ok (rba, s2)
      ∧ (s.index[slotOf s a.keyHash]? = some none →
          s2.index[slotOf s a.keyHash]?
            = some (some (if a.keyHash < b.keyHash then a else b))) := by
  obtain ⟨cur, hcur⟩ := get_of_lt hin
  have hab := addItems_two w fuel s a b cur hcur hslot.symm
  have hcurb : s.index[slotOf s b.keyHash]? = some cur := by rw [← hslot]; exact hcur
  have hba := addItems_two w fuel s b a cur hcurb hslot
  rw [← hslot, offer_comm cur b a (Ne.symm hne)] at hba
  refine ⟨_, _, _, hab, hba, ?_⟩
  intro hempty
  rw [hcur] at hempty
  have hc : cur = none := by injection hempty
  subst hc
  simp only
  rw [List.getElem?_set]
  simp only [if_true, lt_of_get hcur, offer]
  by_cases hlt : a.keyHash < b.keyHash
  · have : ¬ b.keyHash < a.keyHash := by omega
    simp [hlt, this]
  · have : b.keyHash < a.keyHash := by omega
    simp [hlt, this]

/-- Witness for C15: hashes 5 and 3 offered to the same empty slot end with
the entry of hash 3 in either order. -/
theorem addItem_order_independent_witness :
    addItems 4 1 store2 [entry 5, entry 3] = .ok ([1, 0], ⟨3, 1, [some (entry 3), none]⟩)
      ∧ addItems 4 1 store2 [entry 3, entry 5] = .ok ([1, 0], ⟨3, 1, [some (entry 3), none]⟩)
      ∧ ∃ rab rba s2, addItems 4 (0 + 1) store2 [entry 5, entry 3] = .ok (rab, s2)
        ∧ addItems 4 (0 + 1) store2 [entry 3, entry 5] = .ok (rba, s2)
        ∧ (store2.index[slotOf store2 (entry 5).keyHash]? = some none →
            s2.index[slotOf store2 (entry 5).keyHash]?
              = some (some (if (entry 5).keyHash < (entry 3).keyHash
                  then entry 5 else entry 3))) :=
  ⟨rfl, rfl,
    addItem_order_independent 4 0 store2 (entry 5) (entry 3) (by decide) (by decide)
      (by decide)⟩

/-- C17 (backward scan under bucket locality).  On a bucket-local store, for
every hash `h` whose slot `idx = h >> keyShifts` exists: every occupied slot
below `idx` holds a hash smaller than `h`; `itemOrPreNotNull h` returns the
content of slot `idx` if that is occupied with a hash at most `h`; otherwise
the content of the nearest occupied slot strictly below `idx`; otherwise, when
`idx > 0` and no slot below is occupied, empty; and it returns an entry whose
hash exceeds `h` only when `idx = 0`. -/
theorem itemOrPreNotNull_bucketLocal (s : store Key Value) (h : Nat)
    (hloc : bucketLocal s) (hin : slotOf s h < s.index.length) :
    (∀ (j : Nat) (e : ListElement Key Value), j < slotOf s h →
        s.index[j]? = some (some e) → e.keyHash < h)
      ∧ ∃ r, itemOrPreNotNull s h = .ok r
        ∧ (∀ e, s.index[slotOf s h]? = some (some e) → e.keyHash ≤ h → r.ret = some e)
        ∧ ((∀ e, s.index[slotOf s h]? = some (some e) → h < e.keyHash) →
            ∀ (j : Nat) (e : ListElement Key Value), j < slotOf s h →
              s.index[j]? = some (some e) →
              (∀ k, j < k → k < slotOf s h → s.index[k]? = some none) → r.ret = some e)
        ∧ ((∀ e, s.index[slotOf s h]? = some (some e) → h < e.keyHash) →
            0 < slotOf s h → (∀ j, j < slotOf s h → s.index[j]? = some none) →
            r.ret = none)
        ∧ ∀ e, r.ret = some e → h < e.keyHash → slotOf s h = 0 := by
  have hbelow : ∀ (j : Nat) (e : ListElement Key Value), j < slotOf s h →
      s.index[j]? = some (some e) → e.keyHash < h := by
    intro j e hj he
    have := hloc j e he
    rw [← this] at hj
    exact lt_of_shift_lt _ _ _ hj
  refine ⟨hbelow, ?_⟩
  obtain ⟨r, hrun, hget, -⟩ := itemOrPreNotNull_ref s h hin
  have hnostop : (∀ e, s.index[slotOf s h]? = some (some e) → h < e.keyHash) →
      0 < slotOf s h → ¬ (stopsAt s h (slotOf s h) = true) := by
    intro hbig hpos hc
    rcases (stopsAt_iff s h _).mp hc with h0 | ⟨e, he, hle⟩
    · omega
    · have := hbig e he
      omega
  refine ⟨r, hrun, ?_, ?_, ?_, ?_⟩
  · intro e he hle
    have hstop : stopsAt s h (slotOf s h) = true :=
      (stopsAt_iff s h _).mpr (Or.inr ⟨e, he, hle⟩)
    have href : refIndex s h = slotOf s h :=
      Nat.findGreatest_eq (P := fun j => stopsAt s h j = true) hstop
    rw [href, he] at hget
    injection hget with hget
    exact hget.symm
  · intro hbig j e hj he hgap
    have href : refIndex s h = j := by
      apply Nat.findGreatest_eq_iff.mpr
      refine ⟨Nat.le_of_lt hj, ?_, ?_⟩
      · intro _
        exact (stopsAt_iff s h j).mpr (Or.inr ⟨e, he, Nat.le_of_lt (hbelow j e hj he)⟩)
      · intro n hn hle hc
        by_cases hidx : n = slotOf s h
        · subst hidx
          exact hnostop hbig (by omega) hc
        · have hn2 : n < slotOf s h := Nat.lt_of_le_of_ne hle hidx
          rcases (stopsAt_iff s h n).mp hc with h0 | ⟨e1, he1, -⟩
          · omega
          · rw [hgap n hn hn2] at he1
            cases he1
    rw [href, he] at hget
    injection hget with hget
    exact hget.symm
  · intro hbig hpos hnone
    have href : refIndex s h = 0 := by
      apply Nat.findGreatest_eq_zero_iff.mpr
      intro n hn hle hc
      by_cases hidx : n = slotOf s h
      · subst hidx
        exact hnostop hbig hpos hc
      · have hn2 : n < slotOf s h := Nat.lt_of_le_of_ne hle hidx
        rcases (stopsAt_iff s h n).mp hc with h0 | ⟨e1, he1, -⟩
        · omega
        · rw [hnone n hn2] at he1
          cases he1
    rw [href, hnone 0 hpos] at hget
    injection hget with hget
    exact hget.symm
  · intro e hret hlt
    by_contra hidx
    have hpos : 0 < slotOf s h := Nat.pos_of_ne_zero hidx
    rcases (stopsAt_iff s h _).mp (refIndex_stops s h) with h0 | ⟨e1, he1, hle⟩
    · rw [h0, hret] at hget
      have := hbelow 0 e hpos hget
      omega
    · rw [hget, hret] at he1
      have : e = e1 := by injection he1 with he1; injection he1
      subst this
      omega

/-- Witness for C17: on the filled scenario store, which is bucket-local, the
scan for hash 14 finds slot 3 empty and returns the occupant of slot 2. -/
theorem itemOrPreNotNull_bucketLocal_witness :
    bucketLocal store4Filled
      ∧ ∃ r, itemOrPreNotNull store4Filled 14 = .ok r ∧ r.ret = some (entry 9) :=
  have hloc : bucketLocal store4Filled := by
    intro i e he
    have hi : i < 4 := lt_of_get he
    interval_cases i <;> simp [store4Filled] at he <;> subst he <;> rfl
  ⟨hloc,
    let ⟨_, r, hr, _, h2, _⟩ := itemOrPreNotNull_bucketLocal store4Filled 14 hloc (by decide)
    ⟨r, hr, h2 (by simp [slotOf, store4Filled]) 2 (entry 9) (by decide) rfl
      (by intro k h1 h2; exact absurd h2 (by simp [slotOf, store4Filled]; omega))⟩⟩

/-- C18 (lookup after publish).  For every bucket-local store and entry `e`
whose slot exists, after `addItem e` the direct lookup `item e.keyHash`
returns an entry `x`, not empty, that lies in the bucket of `e` and has
`x.keyHash ≤ e.keyHash`, and `itemOrPreNotNull e.keyHash` returns the same
entry `x`. -/
theorem lookup_after_publish [DecidableEq Key] [DecidableEq Value] (w fuel : Nat)
    (s : store Key Value) (e : ListElement Key Value)
    (hloc : bucketLocal s) (hin : slotOf s e.keyHash < s.index.length) :
    ∃ r s1 x, addItem w (fuel + 1) s e = .ok (r, s1)
      ∧ (∃ r1, item s1 e.keyHash = .ok r1 ∧ r1.ret = some x)
      ∧ slotOf s1 x.keyHash = slotOf s1 e.keyHash
      ∧ x.keyHash ≤ e.keyHash
      ∧ ∃ r2, itemOrPreNotNull s1 e.keyHash = .ok r2 ∧ r2.ret = some x := by
  obtain ⟨cur, hcur⟩ := get_of_lt hin
  obtain ⟨r, s1, hrun, hks, hlen, hset, -, -, -⟩ := addItem_get w fuel s e cur hcur
  have hloc1 : bucketLocal s1 := addItem_bucketLocal hrun hloc
  have hidx : slotOf s1 e.keyHash = slotOf s e.keyHash := slotOf_congr hks _
  have hset1 : s1.index[slotOf s1 e.keyHash]? = some (some (offer cur e)) := by
    rw [hidx]
    exact hset
  have hle := offer_le_item cur e
  refine ⟨r, s1, offer cur e, hrun, ⟨_, item_of_get s1 e.keyHash _ hset1, rfl⟩,
    hloc1 _ _ hset1, hle, ?_⟩
  obtain ⟨r2, hr2, hget, -⟩ := itemOrPreNotNull_ref s1 e.keyHash (lt_of_get hset1)
  have hstop : stopsAt s1 e.keyHash (slotOf s1 e.keyHash) = true :=
    (stopsAt_iff s1 e.keyHash _).mpr (Or.inr ⟨_, hset1, hle⟩)
  have href : refIndex s1 e.keyHash = slotOf s1 e.keyHash :=
    Nat.findGreatest_eq (P := fun j => stopsAt s1 e.keyHash j = true) hstop
  rw [href, hset1] at hget
  injection hget with hget
  exact ⟨r2, hr2, hget.symm⟩

/-- Witness for C18: publishing hash 6 into the scenario store whose slot 1
holds hash 5; both lookups of 6 then return the entry with hash 5. -/
theorem lookup_after_publish_witness :
    item (store4One 5) 6 = .ok ⟨some (entry 5), [1], store4One 5⟩
      ∧ itemOrPreNotNull (store4One 5) 6 = .ok ⟨some (entry 5), [1], store4One 5⟩
      ∧ ∃ r s1 x, addItem 4 (0 + 1) (store4One 5) (entry 6) = .ok (r, s1)
        ∧ (∃ r1, item s1 (entry 6).keyHash = .ok r1 ∧ r1.ret = some x)
        ∧ slotOf s1 x.keyHash = slotOf s1 (entry 6).keyHash
        ∧ x.keyHash ≤ (entry 6).keyHash
        ∧ ∃ r2, itemOrPreNotNull s1 (entry 6).keyHash = .ok r2 ∧ r2.ret = some x :=
  ⟨rfl, rfl,
    lookup_after_publish 4 0 (store4One 5) (entry 6)
      (by
        intro i e he
        have hi : i < 4 := lt_of_get he
        interval_cases i <;> simp [store4One] at he
        subst he
        rfl)
      (by decide)⟩

/-- C20 (tie-breaking and idempotence).  When the target slot holds an entry
with the same hash as `item`, `addItem` keeps the occupant, changes nothing
and returns 0.  After any sequence of calls from the empty store, each
occupied slot holds an offered entry of its bucket whose hash is strictly
smaller than that of every bucket entry offered before it and not larger than
that of any bucket entry offered after it: the earliest-offered entry among
those with the least hash of the bucket.  A second call `addItem e` right
after `addItem e` returns 0 and leaves the store unchanged. -/
theorem tie_breaking [DecidableEq Key] [DecidableEq Value] (w fuel : Nat) :
    (∀ (s : store Key Value) (item e : ListElement Key Value),
        s.index[slotOf s item.keyHash]? = some (some e) → e.keyHash = item.keyHash →
        addItem w (fuel + 1) s item = .ok (0, s))
      ∧ (∀ (s : store Key Value) (items : List (ListElement Key Value)),
          allEmpty s → (∀ x ∈ items, slotOf s x.keyHash < s.index.length) →
          ∃ rets s2, addItems w (fuel + 1) s items = .ok (rets, s2)
            ∧ ∀ (i : Nat) (e : ListElement Key Value), s2.index[i]? = some (some e) →
                ∃ pre post, items = pre ++ e :: post ∧ slotOf s e.keyHash = i
                  ∧ (∀ y ∈ pre, slotOf s y.keyHash = i → e.keyHash < y.keyHash)
                  ∧ ∀ y ∈ post, slotOf s y.keyHash = i → e.keyHash ≤ y.keyHash)
      ∧ ∀ (s : store Key Value) (e : ListElement Key Value),
          slotOf s e.keyHash < s.index.length →
          ∃ r s1, addItem w (fuel + 1) s e = .ok (r, s1)
            ∧ addItem w (fuel + 1) s1 e = .ok (0, s1) := by
  refine ⟨?_, ?_, ?_⟩
  · intro s item e he heq
    exact addItemLoop_keep w fuel s item e _ he (Nat.le_of_eq heq)
  · intro s items hempty hin
    obtain ⟨rets, s2, hrun⟩ := addItems_ok w fuel items s hin
    refine ⟨rets, s2, hrun, ?_⟩
    intro i e he
    rcases addItems_earliest w fuel items s s2 rets hrun i e he with
      ⟨h0, -⟩ | ⟨pre, post, h1, h2, h3, -, h5⟩
    · have := allEmpty_get hempty h0
      cases this
    · exact ⟨pre, post, h1, h2, h3, h5⟩
  · intro s e hin
    obtain ⟨cur, hcur⟩ := get_of_lt hin
    obtain ⟨r, s1, hrun, hks, -, hset, -, -, -⟩ := addItem_get w fuel s e cur hcur
    refine ⟨r, s1, hrun, ?_⟩
    have hidx : slotOf s1 e.keyHash = slotOf s e.keyHash := slotOf_congr hks _
    rw [← hidx] at hset
    exact addItemLoop_keep w fuel s1 e _ _ hset (offer_le_item cur e)

/-- Witness for C20: a second entry with hash 5 offered to a slot that holds
hash 5, two entries with hash 5 offered to the empty scenario store, and the
entry with hash 5 offered twice. -/
theorem tie_breaking_witness :
    addItem 4 (0 + 1) (store4One 5) ⟨5, 7, 7⟩ = .ok (0, store4One 5)
      ∧ addItems 4 1 store4 [⟨5, 1, 1⟩, ⟨5, 2, 2⟩]
          = .ok ([1, 0], ⟨2, 1, [none, some ⟨5, 1, 1⟩, none, none]⟩)
      ∧ (∃ rets s2, addItems 4 (0 + 1) store4 [⟨5, 1, 1⟩, ⟨5, 2, 2⟩] = .ok (rets, s2)
          ∧ ∀ (i : Nat) (e : ListElement Nat Nat), s2.index[i]? = some (some e) →
              ∃ pre post, [(⟨5, 1, 1⟩ : ListElement Nat Nat), ⟨5, 2, 2⟩] = pre ++ e :: post
                ∧ slotOf store4 e.keyHash = i
                ∧ (∀ y ∈ pre, slotOf store4 y.keyHash = i → e.keyHash < y.keyHash)
                ∧ ∀ y ∈ post, slotOf store4 y.keyHash = i → e.keyHash ≤ y.keyHash)
      ∧ ∃ r s1, addItem 4 (0 + 1) store4 (entry 5) = .ok (r, s1)
          ∧ addItem 4 (0 + 1) s1 (entry 5) = .ok (0, s1) :=
  ⟨(tie_breaking 4 0).1 (store4One 5) ⟨5, 7, 7⟩ (entry 5) rfl rfl,
    rfl,
    (tie_breaking 4 0).2.1 store4 [⟨5, 1, 1⟩, ⟨5, 2, 2⟩]
      (by simp [allEmpty, store4]) (by simp [slotOf, store4]),
    (tie_breaking 4 0).2.2 store4 (entry 5) (by decide)⟩

/-- C14 (concurrent minimum register).  Threads that concurrently call
`addItem` with entries that address the same existing slot `i` take their
atomic steps (load, compare-and-swap, counter increment) in any order.  Every
interleaving is defined; at each point the slot holds a hash not larger than
the hash offered by any thread that has returned; and when all threads have
returned the slot holds an entry whose hash is the smallest among all offered
entries: an offered entry, or the occupant the slot started with if no offered
hash is smaller.  An interleaving in which all threads return exists.  No
thread can be kept from returning: with `n` threads, a thread that has not
returned was scheduled fewer than `n * (2 * n + 4)` times, so every
interleaving that schedules each thread at least that often ends with all
threads returned and the slot holding the smallest offered hash, and steps
scheduled after that change nothing. -/
theorem concurrent_minimum_register [DecidableEq Key] [DecidableEq Value] (w : Nat)
    (s : store Key Value) (items : List (ListElement Key Value)) (i : Nat)
    (cur0 : Option (ListElement Key Value)) (hcur0 : s.index[i]? = some cur0)
    (hsame : ∀ x ∈ items, slotOf s x.keyHash = i) :
    (∀ sched : List Nat, ∃ c, runSchedule w (spawn s items) sched = .ok c
        ∧ (∀ th ∈ c.threads, th.hasReturned = true →
            ∃ e, c.mem.index[i]? = some (some e) ∧ e.keyHash ≤ th.item.keyHash)
        ∧ (allReturned c = true → items ≠ [] →
            ∃ e, c.mem.index[i]? = some (some e)
              ∧ (e ∈ items ∨ cur0 = some e)
              ∧ (∀ y ∈ items, e.keyHash ≤ y.keyHash)
              ∧ ∀ e0, cur0 = some e0 → e.keyHash ≤ e0.keyHash))
      ∧ (∃ sched c, runSchedule w (spawn s items) sched = .ok c ∧ allReturned c = true)
      ∧ (∀ (sched : List Nat) (c : Conc Key Value) (t : Nat) (th : Thread Key Value),
          runSchedule w (spawn s items) sched = .ok c →
          c.threads[t]? = some th → th.hasReturned = false →
          sched.count t < items.length * (2 * items.length + 4))
      ∧ ∀ sched : List Nat,
          (∀ t, t < items.length → items.length * (2 * items.length + 4) ≤ sched.count t) →
          ∃ c, runSchedule w (spawn s items) sched = .ok c
            ∧ allReturned c = true
            ∧ (items ≠ [] →
                ∃ e, c.mem.index[i]? = some (some e)
                  ∧ (e ∈ items ∨ cur0 = some e)
                  ∧ (∀ y ∈ items, e.keyHash ≤ y.keyHash)
                  ∧ ∀ e0, cur0 = some e0 → e.keyHash ≤ e0.keyHash)
            ∧ ∀ more : List Nat, runSchedule w c more = .ok c := by
  have hsafe : ∀ sched : List Nat, ∃ c, runSchedule w (spawn s items) sched = .ok c
      ∧ (∀ (t : Nat) (th : Thread Key Value), c.threads[t]? = some th → t < items.length)
      ∧ (∀ th ∈ c.threads, th.hasReturned = true →
          ∃ e, c.mem.index[i]? = some (some e) ∧ e.keyHash ≤ th.item.keyHash)
      ∧ (allReturned c = true → items ≠ [] →
          ∃ e, c.mem.index[i]? = some (some e)
            ∧ (e ∈ items ∨ cur0 = some e)
            ∧ (∀ y ∈ items, e.keyHash ≤ y.keyHash)
            ∧ ∀ e0, cur0 = some e0 → e.keyHash ≤ e0.keyHash) := by
    intro sched
    obtain ⟨c, hrun, -, -, hitems, hpcs, horigin, hbound⟩ :=
      runSchedule_inv w s items i cur0 hsame sched (spawn s items)
        (concInv_spawn s items i cur0 hcur0)
    have hret : ∀ th ∈ c.threads, th.hasReturned = true →
        slotLe c.mem i th.item.keyHash := by
      intro th hth hr
      obtain ⟨k, hk⟩ := List.mem_iff_getElem?.mp hth
      exact pcInv_returned th hr (hpcs k th hk)
    refine ⟨c, hrun, ?_, hret, ?_⟩
    · intro t th hth
      have hmap := hitems t
      rw [hth] at hmap
      by_contra hc
      rw [List.getElem?_eq_none (Nat.le_of_not_lt hc)] at hmap
      cases hmap
    intro hall hne
    have hle : ∀ y ∈ items, slotLe c.mem i y.keyHash := by
      intro y hy
      obtain ⟨k, hk⟩ := List.mem_iff_getElem?.mp hy
      have hmap := hitems k
      rw [hk] at hmap
      cases hth : c.threads[k]? with
      | none => rw [hth] at hmap; cases hmap
      | some th =>
        rw [hth] at hmap
        simp only [Option.map_some', Option.some.injEq] at hmap
        have hmem : th ∈ c.threads := List.getElem?_mem hth
        have := hret th hmem (List.all_eq_true.mp hall th hmem)
        rw [hmap] at this
        exact this
    obtain ⟨x, hx⟩ := List.exists_mem_of_ne_nil items hne
    obtain ⟨e, he, -⟩ := hle x hx
    refine ⟨e, he, horigin e he, ?_, ?_⟩
    · intro y hy
      obtain ⟨e1, he1, hle1⟩ := hle y hy
      rw [he] at he1
      have : e = e1 := by injection he1 with he1; injection he1
      rw [this]
      exact hle1
    · intro e0 he0
      obtain ⟨e1, he1, hle1⟩ := hbound e0 he0
      rw [he] at he1
      have : e = e1 := by injection he1 with he1; injection he1
      rw [this]
      exact hle1
  have hbnd : ∀ (sched : List Nat) (c : Conc Key Value) (t : Nat) (th : Thread Key Value),
      runSchedule w (spawn s items) sched = .ok c →
      c.threads[t]? = some th → th.hasReturned = false →
      sched.count t < items.length * (2 * items.length + 4) := by
    intro sched c t th hrun hth hr
    exact runSchedule_bound w s items i cur0 hcur0 hsame sched c t hrun
      (by simp [isReturned, hth, hr])
  refine ⟨?_, ?_, hbnd, ?_⟩
  · intro sched
    obtain ⟨c, hrun, -, hret, hfin⟩ := hsafe sched
    exact ⟨c, hrun, hret, hfin⟩
  · have hin : ∀ x ∈ items, slotOf s x.keyHash < s.index.length := by
      intro x hx
      rw [hsame x hx]
      exact lt_of_get hcur0
    obtain ⟨-, -, c, -, hrun, -, hdone⟩ := soloSchedule_run w 0 items s [] hin rfl
    exact ⟨soloSchedule 0 items.length, c, hrun, hdone⟩
  · intro sched hfair
    obtain ⟨c, hrun, hlen, -, hfin⟩ := hsafe sched
    have hall : allReturned c = true := by
      apply List.all_eq_true.mpr
      intro th hth
      obtain ⟨t, ht⟩ := List.mem_iff_getElem?.mp hth
      cases hr : th.hasReturned with
      | true => rfl
      | false =>
        have h1 := hbnd sched c t th hrun ht hr
        have h2 := hfair t (hlen t th ht)
        omega
    exact ⟨c, hrun, hall, hfin hall, fun more => runSchedule_done w more c hall⟩

/-- Witness for C14: two threads offer hashes 5 and 3 to the same empty slot;
both load the empty slot, the first installs 5, the second fails its
compare-and-swap, retries and replaces 5 by 3.  Continued until each thread
was scheduled 16 times, the interleaving has every thread returned. -/
theorem concurrent_minimum_register_witness :
    runSchedule 4 (spawn store2 [entry 5, entry 3]) [0, 1, 0, 1, 1, 1, 0]
        = .ok ⟨⟨3, 1, [some (entry 3), none]⟩,
            [⟨entry 5, .returned 1⟩, ⟨entry 3, .returned 0⟩]⟩
      ∧ (∃ c, runSchedule 4 (spawn store2 [entry 5, entry 3]) [0, 1, 0, 1, 1, 1, 0] = .ok c
        ∧ (∀ th ∈ c.threads, th.hasReturned = true →
            ∃ e, c.mem.index[0]? = some (some e) ∧ e.keyHash ≤ th.item.keyHash)
        ∧ (allReturned c = true → [entry 5, entry 3] ≠ [] →
            ∃ e, c.mem.index[0]? = some (some e)
              ∧ (e ∈ [entry 5, entry 3] ∨ none = some e)
              ∧ (∀ y ∈ [entry 5, entry 3], e.keyHash ≤ y.keyHash)
              ∧ ∀ e0 : ListElement Nat Nat, none = some e0 → e.keyHash ≤ e0.keyHash))
      ∧ ∃ c, runSchedule 4 (spawn store2 [entry 5, entry 3])
              ([0, 1, 0, 1, 1, 1, 0] ++ (List.replicate 16 0 ++ List.replicate 16 1)) = .ok c
          ∧ allReturned c = true
          ∧ ([entry 5, entry 3] ≠ [] →
              ∃ e, c.mem.index[0]? = some (some e)
                ∧ (e ∈ [entry 5, entry 3] ∨ none = some e)
                ∧ (∀ y ∈ [entry 5, entry 3], e.keyHash ≤ y.keyHash)
                ∧ ∀ e0 : ListElement Nat Nat, none = some e0 → e.keyHash ≤ e0.keyHash)
          ∧ ∀ more : List Nat, runSchedule 4 c more = .ok c :=
  ⟨rfl,
    (concurrent_minimum_register 4 store2 [entry 5, entry 3] 0 none rfl
      (by simp [slotOf, store2, entry])).1 [0, 1, 0, 1, 1, 1, 0],
    (concurrent_minimum_register 4 store2 [entry 5, entry 3] 0 none rfl
      (by simp [slotOf, store2, entry])).2.2.2
      ([0, 1, 0, 1, 1, 1, 0] ++ (List.replicate 16 0 ++ List.replicate 16 1))
      (by decide)⟩

end claims

end hashmap
